import Mathlib

/-!
Verification of the repository's two components against its specification.

The repository's checked-in source holds only the chart-generation script
(`generate_mockup.py`), embedded in namespace `Mockup` below.  The CLAUDE.md
hierarchical section parser and selective-content regenerator (the
menuconfig component) is described in detail by the specification but its
code is not among the repository's files; namespace `Menuconfig` models it
from the specification's own algorithm description (sections 3, 4.1, 4.2),
and all theorems about it are settled against that model.
-/

namespace Menuconfig

/-- A text line, without its terminator.  A document is a list of lines; the
original text is the lines joined with a newline after each. -/
abbrev Line := List Char

/-- Whitespace for trimming: space or tab. -/
def isWSChar (c : Char) : Bool := c == ' ' || c == '\t'

/-- Modelled from the spec: strip leading whitespace. -/
def trimLeft (l : Line) : Line := l.dropWhile isWSChar

/-- Modelled from the spec: strip trailing whitespace. -/
def trimRight (l : Line) : Line := (l.reverse.dropWhile isWSChar).reverse

/-- Modelled from the spec: whitespace-trim a line on both sides. -/
def trimLine (l : Line) : Line := trimRight (trimLeft l)

/-- Modelled from the spec (section 4.1 step 1): a line consisting solely of a
leading triple-backtick marker, after trimming, toggles the code-fence flag. -/
def isFence (l : Line) : Bool := trimLine l == ['`', '`', '`']

/-- Count of leading '#' characters. -/
def hashCount (l : Line) : Nat := (l.takeWhile (fun c => c == '#')).length

/-- Modelled from the spec (section 4.1 step 2): a header line has 1-6 leading
'#' characters, then one or more spaces, then non-empty text; on a match the
level is the hash count and the title is the trimmed remaining text. -/
def parseHeader (l : Line) : Option (Nat × Line) :=
  let k := hashCount l
  if 1 ≤ k && k ≤ 6 then
    match l.drop k with
    | [] => none
    | c :: rest =>
      if isWSChar c then
        let t := trimLine (c :: rest)
        if t.isEmpty then none else some (k, t)
      else none
  else none

/-- Whether a line matches the heading grammar at all. -/
def isHeaderPattern (l : Line) : Bool := (parseHeader l).isSome

/-- Modelled from the spec (section 3): one Markdown heading and the text
beneath it.  `children` makes the type a rose tree; the parent back-reference
of the original is derivable and carries no extra information. -/
inductive Section where
  | mk (level : Nat) (title : Line) (line_start line_end : Nat)
       (enabled : Bool) (content_lines : List Line) (children : List Section)

def Section.level : Section → Nat
  | .mk l _ _ _ _ _ _ => l

def Section.title : Section → Line
  | .mk _ t _ _ _ _ _ => t

def Section.line_start : Section → Nat
  | .mk _ _ a _ _ _ _ => a

def Section.line_end : Section → Nat
  | .mk _ _ _ b _ _ _ => b

def Section.enabled : Section → Bool
  | .mk _ _ _ _ e _ _ => e

def Section.content_lines : Section → List Line
  | .mk _ _ _ _ _ cl _ => cl

def Section.children : Section → List Section
  | .mk _ _ _ _ _ _ cs => cs

/-- A currently-open section on the parser's stack: its header data and the
already-closed children collected so far, most recent first. -/
structure Frame where
  level : Nat
  title : Line
  line_start : Nat
  childrenRev : List Section

/-- Close an open section at line `e`: `line_end := e`; `enabled` defaults
true; `content_lines` is filled by the second pass. -/
def closeFrame (f : Frame) (e : Nat) : Section :=
  .mk f.level f.title f.line_start e true [] f.childrenRev.reverse

/-- Record a finished child, document order preserved via the reversal. -/
def Frame.addChild (f : Frame) (s : Section) : Frame :=
  { f with childrenRev := s :: f.childrenRev }

/-- Modelled from the spec (section 4.1 step 3): the popping loop, carrying the
section just closed down the stack.  The closed section becomes a child of the
frame below it (the original attaches children at push time by mutation; with
immutable data the attachment happens as the child is closed, to the same
frame).  Frames whose level is ≥ the incoming level close in turn with the
same `line_end`. -/
def popAttach (lvl e : Nat) (s : Section) :
    List Frame → List Section → List Frame × List Section
  | [], roots => ([], s :: roots)
  | g :: gs, roots =>
    if lvl ≤ g.level then popAttach lvl e (closeFrame (g.addChild s) e) gs roots
    else ((g.addChild s) :: gs, roots)

/-- Modelled from the spec (section 4.1 step 3): on a new header at `lvl`, pop
and close, with `line_end = e`, every open section whose level is ≥ `lvl`.
With `lvl = 0` this closes every open section (section 4.1 step 4). -/
def popGE (lvl e : Nat) (stack : List Frame) (roots : List Section) :
    List Frame × List Section :=
  match stack with
  | [] => ([], roots)
  | f :: rest =>
    if lvl ≤ f.level then popAttach lvl e (closeFrame f e) rest roots
    else (f :: rest, roots)

/-- The scanning state: next line index, the code-fence flag, the stack of
open sections, and the finished root sections (most recent first). -/
structure ScanState where
  idx : Nat
  in_code_block : Bool
  stack : List Frame
  rootsRev : List Section

/-- Modelled from the spec (section 4.1 steps 1-3): one line of the scan.
A fence line toggles the flag; while the flag is true no header detection
occurs on any line; otherwise a heading match closes sections at its own
depth or deeper (`line_end = idx - 1`) and pushes the new open section. -/
def scanStep (st : ScanState) (l : Line) : ScanState :=
  if isFence l then
    { st with in_code_block := !st.in_code_block, idx := st.idx + 1 }
  else if st.in_code_block then
    { st with idx := st.idx + 1 }
  else
    match parseHeader l with
    | none => { st with idx := st.idx + 1 }
    | some (lvl, t) =>
      let (stack1, roots1) := popGE lvl (st.idx - 1) st.stack st.rootsRev
      { idx := st.idx + 1, in_code_block := false,
        stack := ⟨lvl, t, st.idx, []⟩ :: stack1, rootsRev := roots1 }

/-- The whole first pass of the scan. -/
def scanAll (lines : List Line) : ScanState :=
  lines.foldl scanStep ⟨0, false, [], []⟩

/-- Modelled from the spec (section 4.1 steps 1-4): the first pass.  At end of
input every section still open closes with `line_end` = last line index. -/
def parsePass1 (lines : List Line) : List Section :=
  let st := scanAll lines
  ((popGE 0 (lines.length - 1) st.stack st.rootsRev).2).reverse

mutual
/-- Pre-order flattening of one section. -/
def flattenSec : Section → List Section
  | .mk l t a b e cl cs => .mk l t a b e cl cs :: flattenForest cs
/-- Modelled from the spec (section 4.1 step 5): pre-order flattening of a
forest. -/
def flattenForest : List Section → List Section
  | [] => []
  | s :: rest => flattenSec s ++ flattenForest rest
end

/-- Modelled from the spec (section 4.1 step 5): the content span starts at
`ls` and initially ends at `le + 1` (exclusive); it is narrowed to the
`line_start` of the nearest other section, from the flattened list, whose
`line_start` falls strictly inside the current window. -/
def narrowEnd (flat : List Section) (ls le : Nat) : Nat :=
  flat.foldl
    (fun e t => if ls < t.line_start && t.line_start < e then t.line_start else e)
    (le + 1)

/-- The lines with indices in `[a, b)`. -/
def sliceLines (lines : List Line) (a b : Nat) : List Line :=
  (lines.drop a).take (b - a)

mutual
/-- Modelled from the spec (section 4.1 step 5): record the narrowed slice as
`content_lines` and set `line_end` to the narrowed end minus one; the
narrowing is applied to every section of the forest. -/
def narrowSec (flat : List Section) (lines : List Line) : Section → Section
  | .mk l t a b e _ cs =>
    let nd := narrowEnd flat a b
    .mk l t a (nd - 1) e (sliceLines lines a nd) (narrowForest flat lines cs)
def narrowForest (flat : List Section) (lines : List Line) :
    List Section → List Section
  | [] => []
  | s :: rest => narrowSec flat lines s :: narrowForest flat lines rest
end

/-- Modelled from the spec (section 4.1): the full SectionParser, first pass
then content extraction. -/
def parse (lines : List Line) : List Section :=
  let f1 := parsePass1 lines
  narrowForest (flattenForest f1) lines f1

/-- Modelled from the spec (section 4.2 step 2): the reconstructed header
line, `level` '#' characters, one space, then the title. -/
def headerLine (lvl : Nat) (t : Line) : Line :=
  List.replicate lvl '#' ++ [' '] ++ t

mutual
/-- Modelled from the spec (section 4.2): an enabled section emits its
reconstructed header, then its `content_lines` from index 1 on except lines
matching the heading pattern; a disabled section emits nothing of its own;
children are visited either way. -/
def projectSec : Section → List Line
  | .mk l t _ _ e cl cs =>
    (if e then
      headerLine l t :: (cl.drop 1).filter (fun x => !(isHeaderPattern x))
    else []) ++ projectForest cs
def projectForest : List Section → List Line
  | [] => []
  | s :: rest => projectSec s ++ projectForest rest
end

/-- Join lines back into one text, a newline after each line. -/
def unlines (ls : List Line) : List Char :=
  (ls.map (fun l => l ++ ['\n'])).flatten

/-- Modelled from the spec (section 4.2): the ContentProjector's output as one
reconstructed text. -/
def projectText (forest : List Section) : List Char :=
  unlines (projectForest forest)

/-- Replace the element at an index, out-of-range indices untouched. -/
def modifyAt (f : α → α) : Nat → List α → List α
  | _, [] => []
  | 0, x :: xs => f x :: xs
  | n + 1, x :: xs => x :: modifyAt f n xs

/-- Toggle the `enabled` flag of the section a child-index path addresses
(the UI layer's only mutation, section 3 of the spec). -/
def toggleSec : List Nat → Section → Section
  | [], .mk l t a b e cl cs => .mk l t a b (!e) cl cs
  | i :: p, .mk l t a b e cl cs => .mk l t a b e cl (modifyAt (toggleSec p) i cs)

/-- Toggle the `enabled` flag of the forest section a path addresses; the
empty path addresses nothing and leaves the forest unchanged. -/
def toggleForest : List Nat → List Section → List Section
  | [], F => F
  | i :: p, F => modifyAt (toggleSec p) i F

/-- Modelled from the spec (sections 4.1 and 7): the caller-facing entry that
loads the backing file and parses it.  An absent file fails fast with a
FileNotFound-equivalent error before any forest exists; the parser itself has
no failure path (malformed headings are inert content). -/
def loadAndParse (file : Option (List Line)) : Except String (List Section) :=
  match file with
  | none => .error "FileNotFound"
  | some lines => .ok (parse lines)

/-- The code-fence flag the scan holds when it reaches line `i` (the parity
of fence lines among the first `i` lines). -/
def fenceStateAt (lines : List Line) (i : Nat) : Bool :=
  (lines.take i).foldl (fun b l => if isFence l then !b else b) false

/-- Header detection as the scan performs it, as a predicate on one line
index: the fence flag is down when the scan reaches the line, the line is not
itself a fence line, and it matches the heading grammar. -/
def headerDetectedAt (lines : List Line) (i : Nat) : Prop :=
  fenceStateAt lines i = false ∧ isFence (lines.getD i []) = false ∧
    isHeaderPattern (lines.getD i []) = true

mutual
/-- Sibling invariant checker, all levels of a forest: every section's range
is an interval (`line_start ≤ line_end`) and for every pair of siblings in
document order the earlier one's `line_end` is below the later one's
`line_start`, so sibling ranges are pairwise disjoint and ordered by
`line_start`. -/
def sibOKForest : List Section → Bool
  | [] => true
  | s :: rest =>
    sibOKSec s && rest.all (fun t => decide (s.line_end < t.line_start)) &&
      sibOKForest rest
def sibOKSec : Section → Bool
  | .mk _ _ a b _ _ cs => decide (a ≤ b) && sibOKForest cs
end

mutual
/-- The nesting invariant exactly as the specification claims it of the
parser's output: every descendant's `line_start` lies strictly above its
ancestor's `line_start` and within the ancestor's `[line_start, line_end]`
range. -/
def nestClaimForest : List Section → Bool
  | [] => true
  | s :: rest => nestClaimSec s && nestClaimForest rest
def nestClaimSec : Section → Bool
  | .mk _ _ a b _ _ cs =>
    (flattenForest cs).all
      (fun d => decide (a < d.line_start) && decide (d.line_start ≤ b)) &&
      nestClaimForest cs
end

mutual
/-- The lower half of the nesting invariant: every descendant's `line_start`
is strictly greater than its ancestor's. -/
def nestLowerForest : List Section → Bool
  | [] => true
  | s :: rest => nestLowerSec s && nestLowerForest rest
def nestLowerSec : Section → Bool
  | .mk _ _ a _ _ _ cs =>
    (flattenForest cs).all (fun d => decide (a < d.line_start)) &&
      nestLowerForest cs
end

mutual
/-- The shape the first pass gives one section: it is enabled (the default
the parser sets), its range is an interval, every child starts strictly
after it, and the children tile the tail of its window
`[line_start, line_end + 1)` back to back. -/
def tileSec : Section → Bool
  | .mk _ _ a b e _ cs =>
    e && decide (a ≤ b) && cs.all (fun c => decide (a < c.line_start)) &&
      chainTile (b + 1) cs
/-- A run of sections tiling back to back up to `stop`: each section is
well-tiled, each `line_end + 1` is the next section's `line_start`, and the
last section's `line_end + 1` is `stop`.  The empty run tiles nothing. -/
def chainTile (stop : Nat) : List Section → Bool
  | [] => true
  | s :: rest =>
    tileSec s &&
      (match rest with
       | [] => decide (s.line_end + 1 = stop)
       | d :: _ => decide (s.line_end + 1 = d.line_start)) &&
      chainTile stop rest
end

mutual
/-- Node count of one section's subtree. -/
def secSize : Section → Nat
  | .mk _ _ _ _ _ _ cs => 1 + forestSize cs
/-- Node count of a forest. -/
def forestSize : List Section → Nat
  | [] => 0
  | s :: rest => secSize s + forestSize rest
end

/-- `chainTile` read back to front, as the scan accumulates it: the head is
the most recently closed section and ends at `stop`; each further section
ends where the one closed after it starts. -/
def RevChain : Nat → List Section → Prop
  | _, [] => True
  | stop, s :: rest =>
    tileSec s = true ∧ s.line_end + 1 = stop ∧ RevChain s.line_start rest

/-- The scan-state invariant over the stack (head = innermost open section)
and the finished roots: each frame starts below the start of the frame above
it (`stop` for the head), its closed children so far tile back to
`stop`/that start and all start strictly after it, and below the bottom
frame the finished roots tile back to the bottom frame's start. -/
def FramesOK : Nat → List Frame → List Section → Prop
  | stop, [], roots => RevChain stop roots
  | stop, g :: gs, roots =>
    g.line_start < stop ∧ RevChain stop g.childrenRev ∧
      (∀ c ∈ g.childrenRev, g.line_start < c.line_start) ∧
      FramesOK g.line_start gs roots

/-- Every section held anywhere in the scan state: the closed children of
every open frame, and the finished roots, with their whole subtrees. -/
def stateSecs (st : ScanState) : List Section :=
  (st.stack.map (fun f => flattenForest f.childrenRev)).flatten ++
    flattenForest st.rootsRev

/-- The header data the scan read at line `i` of the input: the fence flag
was down, the line is not a fence line, and it parses as a heading with the
given level and title. -/
def HeaderData (lines : List Line) (i lvl : Nat) (t : Line) : Prop :=
  fenceStateAt lines i = false ∧ isFence (lines.getD i []) = false ∧
    parseHeader (lines.getD i []) = some (lvl, t)

/-- The identifying header data of a section node: where it starts, its
level and its title. -/
def secHdr (s : Section) : Nat × Nat × Line := (s.line_start, s.level, s.title)

/-- The header data of everything a scan state holds: each open frame, and
every section closed so far (a frame's collected children and the finished
roots, whole subtrees included). -/
def stateHdrs : List Frame → List Section → List (Nat × Nat × Line)
  | [], roots => (flattenForest roots).map secHdr
  | f :: rest, roots =>
    (f.line_start, f.level, f.title) ::
      ((flattenForest f.childrenRev).map secHdr ++ stateHdrs rest roots)

/-- The header bookkeeping invariant: everything the state holds was
detected as a header on an already-consumed line, and every header detected
so far is held by the state. -/
def HdrsInv (lines : List Line) (k : Nat) (st : ScanState) : Prop :=
  (∀ x ∈ stateHdrs st.stack st.rootsRev,
    x.1 < k ∧ HeaderData lines x.1 x.2.1 x.2.2) ∧
  (∀ i, i < k → headerDetectedAt lines i →
    ∃ lvl t, (i, lvl, t) ∈ stateHdrs st.stack st.rootsRev)

/-- The scan invariant: the index counts the lines consumed, the flag is the
fence parity so far, and the stack with the finished roots is well-formed —
either nothing has been opened yet, or the innermost open section has no
closed children yet and everything below it satisfies `FramesOK`. -/
def ScanInv (lines : List Line) (k : Nat) (st : ScanState) : Prop :=
  st.idx = k ∧ st.in_code_block = fenceStateAt lines k ∧
    ((st.stack = [] ∧ st.rootsRev = []) ∨
      (∃ f rest, st.stack = f :: rest ∧ f.childrenRev = [] ∧
        f.line_start < k ∧ FramesOK f.line_start rest st.rootsRev))

/-- A heading-pattern line is canonical when it is exactly its own
reconstruction: its hashes, one space, the trimmed title.  Non-heading lines
are canonical vacuously. -/
def isCanonicalLine (l : Line) : Bool :=
  match parseHeader l with
  | none => true
  | some (k, t) => l == headerLine k t

/-- Build a line from a string literal. -/
def ln (s : String) : Line := s.toList

/-- The specification's section 8 scenario document. -/
def scenarioDoc : List Line :=
  [ln "# A", ln "text1", ln "## B", ln "text2", ln "# C", ln "text3"]

/-- A document whose only section has a descendant: the smallest input on
which content extraction narrows the parent's `line_end` below its
descendant's `line_start`. -/
def nestedDoc : List Line :=
  [ln "# A", ln "text1", ln "## B", ln "text2"]

/-- A document with a closed code fence around a heading-like line. -/
def fenceDoc : List Line :=
  [ln "x", ln "```", ln "# H", ln "```", ln "## K", ln "y"]

/-- A document whose single, never-closed fence precedes its headings. -/
def untermDoc : List Line :=
  [ln "```", ln "# H", ln "hello"]

end Menuconfig

namespace Mockup

/-- One top-level Python statement of `src/generate_mockup.py`, by kind.  The
script's statements are imports, plain assignments, expression statements
(calls), and three small `for` loops (one holding an `if`/`else`); the two
observable operations the claims are about, `plt.savefig(path, ...)` and
`print(msg)`, keep their string argument. -/
inductive PyStmt where
  | imp (text : String)
  | assign (target expr : String)
  | exprCall (text : String)
  | savefigCall (path : String)
  | printCall (msg : String)
  | forLoop (header : String) (body : List PyStmt)
  | ifElse (cond : String) (thn els : List PyStmt)
  | funcDef (name : String) (body : List PyStmt)
  | classDef (name : String) (body : List PyStmt)
  | tryExcept (body handler : List PyStmt)

/-- `src/generate_mockup.py`, statements in source order, part 1. -/
def modulePart1 : List PyStmt := [
  .imp "import matplotlib.pyplot as plt",
  .imp "import matplotlib.patches as patches",
  .imp "from matplotlib.patches import Rectangle, FancyBboxPatch",
  .imp "import numpy as np",
  .imp "from datetime import datetime, timedelta",
  .imp "import random",
  .exprCall "plt.style.use('dark_background')",
  .assign "fig" "plt.figure(figsize=(20, 14))",
  .exprCall "fig.patch.set_facecolor('#1a1a1a')",
  .exprCall "plt.suptitle('llm-d Platform Monitoring Dashboard v0.51.1', fontsize=24, fontweight='bold', color='#ffffff', y=0.95)",
  .assign "timestamp" "datetime.now().strftime('%Y-%m-%d %H:%M:%S UTC')",
  .exprCall "plt.figtext(0.85, 0.92, f'Last Updated: \x7btimestamp\x7d', fontsize=10, color='#888888')",
  .assign "red_hat_red" "'#ee0000'",
  .assign "panel_bg" "'#2d2d2d'",
  .assign "text_color" "'#ffffff'",
  .assign "metric_green" "'#28a745'",
  .assign "metric_yellow" "'#ffc107'",
  .assign "metric_red" "'#dc3545'",
  .assign "gs" "fig.add_gridspec(6, 5, hspace=0.3, wspace=0.2, left=0.05, right=0.95, top=0.88, bottom=0.05)",
  .assign "ax1" "fig.add_subplot(gs[0, 0])"]


/-- `src/generate_mockup.py`, statements in source order, part 2. -/
def modulePart2 : List PyStmt := [
  .exprCall "ax1.set_facecolor(panel_bg)",
  .exprCall "ax1.text(0.5, 0.8, 'Active Models', ...)",
  .exprCall "ax1.text(0.5, 0.4, '12', ...)",
  .exprCall "ax1.text(0.5, 0.1, '+2 from last hour', ...)",
  .exprCall "ax1.set_xlim(0, 1)",
  .exprCall "ax1.set_ylim(0, 1)",
  .exprCall "ax1.axis('off')",
  .assign "ax2" "fig.add_subplot(gs[0, 1])",
  .exprCall "ax2.set_facecolor(panel_bg)",
  .exprCall "ax2.text(0.5, 0.8, 'Requests/sec', ...)",
  .exprCall "ax2.text(0.5, 0.4, '1,247', ...)",
  .exprCall "ax2.text(0.5, 0.1, '↗ 15% increase', ...)",
  .exprCall "ax2.set_xlim(0, 1)",
  .exprCall "ax2.set_ylim(0, 1)",
  .exprCall "ax2.axis('off')",
  .assign "ax3" "fig.add_subplot(gs[0, 2])",
  .exprCall "ax3.set_facecolor(panel_bg)",
  .exprCall "ax3.text(0.5, 0.8, 'System Uptime', ...)",
  .exprCall "ax3.text(0.5, 0.4, '99.97%', ...)",
  .exprCall "ax3.text(0.5, 0.1, '47 days, 13h', ...)"]


/-- `src/generate_mockup.py`, statements in source order, part 3. -/
def modulePart3 : List PyStmt := [
  .exprCall "ax3.set_xlim(0, 1)",
  .exprCall "ax3.set_ylim(0, 1)",
  .exprCall "ax3.axis('off')",
  .assign "ax4" "fig.add_subplot(gs[0, 3])",
  .exprCall "ax4.set_facecolor(panel_bg)",
  .exprCall "ax4.text(0.5, 0.8, 'Error Rate', ...)",
  .exprCall "ax4.text(0.5, 0.4, '0.03%', ...)",
  .exprCall "ax4.text(0.5, 0.1, 'Within SLO', ...)",
  .exprCall "ax4.set_xlim(0, 1)",
  .exprCall "ax4.set_ylim(0, 1)",
  .exprCall "ax4.axis('off')",
  .assign "ax5" "fig.add_subplot(gs[0, 4])",
  .exprCall "ax5.set_facecolor(panel_bg)",
  .exprCall "ax5.text(0.5, 0.8, 'GPU Utilization', ...)",
  .exprCall "ax5.text(0.5, 0.4, '78%', ...)",
  .exprCall "ax5.text(0.5, 0.1, '8/10 GPUs active', ...)",
  .exprCall "ax5.set_xlim(0, 1)",
  .exprCall "ax5.set_ylim(0, 1)",
  .exprCall "ax5.axis('off')",
  .assign "ax6" "fig.add_subplot(gs[1:3, 0:2])"]


/-- `src/generate_mockup.py`, statements in source order, part 4. -/
def modulePart4 : List PyStmt := [
  .exprCall "ax6.set_facecolor(panel_bg)",
  .exprCall "ax6.set_title('Inference Latency (P50, P95, P99)', ...)",
  .assign "hours" "np.arange(0, 24, 0.5)",
  .assign "p50" "45 + 10 * np.sin(hours/4) + np.random.normal(0, 2, len(hours))",
  .assign "p95" "120 + 20 * np.sin(hours/4) + np.random.normal(0, 5, len(hours))",
  .assign "p99" "280 + 40 * np.sin(hours/4) + np.random.normal(0, 10, len(hours))",
  .exprCall "ax6.plot(hours, p50, color=metric_green, linewidth=2, label='P50', alpha=0.8)",
  .exprCall "ax6.plot(hours, p95, color=metric_yellow, linewidth=2, label='P95', alpha=0.8)",
  .exprCall "ax6.plot(hours, p99, color=metric_red, linewidth=2, label='P99', alpha=0.8)",
  .exprCall "ax6.fill_between(hours, p50, alpha=0.2, color=metric_green)",
  .exprCall "ax6.fill_between(hours, p95, p50, alpha=0.1, color=metric_yellow)",
  .exprCall "ax6.fill_between(hours, p99, p95, alpha=0.1, color=metric_red)",
  .exprCall "ax6.set_xlabel('Hours Ago', color=text_color)",
  .exprCall "ax6.set_ylabel('Latency (ms)', color=text_color)",
  .exprCall "ax6.tick_params(colors=text_color)",
  .exprCall "ax6.legend(loc='upper left')",
  .exprCall "ax6.grid(True, alpha=0.3)",
  .exprCall "ax6.set_xlim(0, 24)",
  .exprCall "ax6.set_ylim(0, 400)",
  .exprCall "ax6.text(0.95, 0.95, '🔍+ 🔍- ⟲', ..., bbox=dict(boxstyle='round,pad=0.3', facecolor='#3d3d3d', alpha=0.7))"]


/-- `src/generate_mockup.py`, statements in source order, part 5. -/
def modulePart5 : List PyStmt := [
  .assign "ax7" "fig.add_subplot(gs[1:3, 2])",
  .exprCall "ax7.set_facecolor(panel_bg)",
  .exprCall "ax7.set_title('Token Costs', ...)",
  .assign "periods" "['Last Hour', 'Last Day', 'Last Week', 'Last Month']",
  .assign "costs" "[12.47, 298.50, 2156.78, 8734.25]",
  .assign "colors" "[metric_green, metric_green, metric_yellow, metric_red]",
  .assign "bars" "ax7.bar(periods, costs, color=colors, alpha=0.8)",
  .exprCall "ax7.set_ylabel('Cost ($)', color=text_color)",
  .exprCall "ax7.tick_params(colors=text_color, rotation=45)",
  .forLoop "for bar, cost in zip(bars, costs)" [
    .assign "height" "bar.get_height()",
    .exprCall "ax7.text(bar.get_x() + bar.get_width()/2., height, f'$\x7bcost:.2f\x7d', ha='center', va='bottom', color=text_color)"],
  .assign "ax8" "fig.add_subplot(gs[1, 3])",
  .exprCall "ax8.set_facecolor(panel_bg)",
  .exprCall "ax8.text(0.5, 0.85, 'GPU Temp (Max)', ...)",
  .assign "theta" "np.linspace(0, np.pi, 100)",
  .assign "r" "0.4",
  .assign "x_outer" "r * np.cos(theta)",
  .assign "y_outer" "r * np.sin(theta)",
  .exprCall "ax8.plot(x_outer, y_outer, color='#555555', linewidth=8)",
  .assign "temp_angle" "np.pi * (72/90)",
  .assign "x_temp" "r * np.cos(temp_angle)"]


/-- `src/generate_mockup.py`, statements in source order, part 6. -/
def modulePart6 : List PyStmt := [
  .assign "y_temp" "r * np.sin(temp_angle)",
  .exprCall "ax8.plot([0, x_temp], [0, y_temp], color=metric_yellow, linewidth=6)",
  .exprCall "ax8.text(0, -0.1, '72°C', ...)",
  .exprCall "ax8.text(0, -0.25, 'Safe Range', ...)",
  .exprCall "ax8.set_xlim(-0.6, 0.6)",
  .exprCall "ax8.set_ylim(-0.4, 0.6)",
  .exprCall "ax8.axis('off')",
  .assign "ax9" "fig.add_subplot(gs[1, 4])",
  .exprCall "ax9.set_facecolor(panel_bg)",
  .exprCall "ax9.text(0.5, 0.8, 'Queue Depth', ...)",
  .exprCall "ax9.text(0.5, 0.4, '23', ...)",
  .exprCall "ax9.text(0.5, 0.1, 'Avg wait: 45ms', ...)",
  .exprCall "ax9.set_xlim(0, 1)",
  .exprCall "ax9.set_ylim(0, 1)",
  .exprCall "ax9.axis('off')",
  .assign "ax10" "fig.add_subplot(gs[2, 3])",
  .exprCall "ax10.set_facecolor(panel_bg)",
  .exprCall "ax10.text(0.5, 0.8, 'Memory Usage', ...)",
  .exprCall "ax10.text(0.5, 0.4, '67%', ...)",
  .exprCall "ax10.text(0.5, 0.1, '42.7GB / 64GB', ...)"]


/-- `src/generate_mockup.py`, statements in source order, part 7. -/
def modulePart7 : List PyStmt := [
  .exprCall "ax10.set_xlim(0, 1)",
  .exprCall "ax10.set_ylim(0, 1)",
  .exprCall "ax10.axis('off')",
  .assign "ax11" "fig.add_subplot(gs[2, 4])",
  .exprCall "ax11.set_facecolor(panel_bg)",
  .exprCall "ax11.text(0.5, 0.8, 'vLLM Engines', ...)",
  .exprCall "ax11.text(0.5, 0.5, '✓', ...)",
  .exprCall "ax11.text(0.5, 0.2, '6/6 Healthy', ...)",
  .exprCall "ax11.text(0.5, 0.05, 'v0.2.1', ...)",
  .exprCall "ax11.set_xlim(0, 1)",
  .exprCall "ax11.set_ylim(0, 1)",
  .exprCall "ax11.axis('off')",
  .assign "ax12" "fig.add_subplot(gs[3:5, 0:3])",
  .exprCall "ax12.set_facecolor(panel_bg)",
  .exprCall "ax12.set_title('Throughput Metrics', ...)",
  .assign "time_points" "np.arange(0, 24, 0.25)",
  .assign "base_rps" "800 + 400 * np.sin((time_points - 8) * np.pi / 12)",
  .assign "rps" "np.maximum(200, base_rps + np.random.normal(0, 50, len(time_points)))",
  .assign "base_tps" "rps * 45",
  .assign "tps" "base_tps + np.random.normal(0, 1000, len(time_points))"]


/-- `src/generate_mockup.py`, statements in source order, part 8. -/
def modulePart8 : List PyStmt := [
  .assign "ax12_twin" "ax12.twinx()",
  .assign "line1" "ax12.plot(time_points, rps, color=metric_green, linewidth=2, label='Requests/sec', alpha=0.9)",
  .assign "line2" "ax12_twin.plot(time_points, tps, color=red_hat_red, linewidth=2, label='Tokens/sec', alpha=0.9)",
  .exprCall "ax12.fill_between(time_points, rps, alpha=0.2, color=metric_green)",
  .exprCall "ax12_twin.fill_between(time_points, tps, alpha=0.1, color=red_hat_red)",
  .exprCall "ax12.set_xlabel('Hours Ago', color=text_color)",
  .exprCall "ax12.set_ylabel('Requests/sec', color=metric_green)",
  .exprCall "ax12_twin.set_ylabel('Tokens/sec', color=red_hat_red)",
  .exprCall "ax12.tick_params(colors=text_color)",
  .exprCall "ax12_twin.tick_params(colors=text_color)",
  .assign "lines1, labels1" "ax12.get_legend_handles_labels()",
  .assign "lines2, labels2" "ax12_twin.get_legend_handles_labels()",
  .exprCall "ax12.legend(lines1 + lines2, labels1 + labels2, loc='upper left')",
  .exprCall "ax12.grid(True, alpha=0.3)",
  .exprCall "ax12.set_xlim(0, 24)",
  .assign "ax13" "fig.add_subplot(gs[3:5, 3:5])",
  .exprCall "ax13.set_facecolor(panel_bg)",
  .exprCall "ax13.set_title('Active Model Distribution', ...)",
  .assign "models" "['Llama-2-7B', 'Llama-2-13B', 'CodeLlama-7B', 'Mistral-7B', 'GPT-3.5-Turbo']",
  .assign "sizes" "[35, 25, 15, 15, 10]"]


/-- `src/generate_mockup.py`, statements in source order, part 9. -/
def modulePart9 : List PyStmt := [
  .assign "colors" "['#ff6b6b', '#4ecdc4', '#45b7d1', '#96ceb4', '#ffeaa7']",
  .assign "wedges, texts, autotexts" "ax13.pie(sizes, labels=models, colors=colors, autopct='%1.1f%%', startangle=90)",
  .forLoop "for autotext in autotexts" [
    .exprCall "autotext.set_color('white')",
    .exprCall "autotext.set_fontweight('bold')"],
  .forLoop "for text in texts" [
    .exprCall "text.set_color('white')",
    .exprCall "text.set_fontsize(10)"],
  .assign "ax14" "fig.add_subplot(gs[5, 0])",
  .exprCall "ax14.set_facecolor(panel_bg)",
  .exprCall "ax14.text(0.5, 0.8, 'SLA Status', ...)",
  .exprCall "ax14.text(0.5, 0.45, '✓', ...)",
  .exprCall "ax14.text(0.5, 0.15, 'All targets met', ...)",
  .exprCall "ax14.set_xlim(0, 1)",
  .exprCall "ax14.set_ylim(0, 1)",
  .exprCall "ax14.axis('off')",
  .assign "ax15" "fig.add_subplot(gs[5, 1])",
  .exprCall "ax15.set_facecolor(panel_bg)",
  .exprCall "ax15.text(0.5, 0.8, 'Cost/1K Tokens', ...)",
  .exprCall "ax15.text(0.5, 0.4, '$0.0023', ...)",
  .exprCall "ax15.text(0.5, 0.1, '12% under budget', ...)",
  .exprCall "ax15.set_xlim(0, 1)",
  .exprCall "ax15.set_ylim(0, 1)",
  .exprCall "ax15.axis('off')"]


/-- `src/generate_mockup.py`, statements in source order, part 10. -/
def modulePart10 : List PyStmt := [
  .assign "ax16" "fig.add_subplot(gs[5, 2])",
  .exprCall "ax16.set_facecolor(panel_bg)",
  .exprCall "ax16.text(0.5, 0.8, 'Load Balancer', ...)",
  .exprCall "ax16.text(0.5, 0.4, '98.2%', ...)",
  .exprCall "ax16.text(0.5, 0.1, 'Distribution eff.', ...)",
  .exprCall "ax16.set_xlim(0, 1)",
  .exprCall "ax16.set_ylim(0, 1)",
  .exprCall "ax16.axis('off')",
  .assign "ax17" "fig.add_subplot(gs[5, 3])",
  .exprCall "ax17.set_facecolor(panel_bg)",
  .exprCall "ax17.text(0.5, 0.8, 'MTTR', ...)",
  .exprCall "ax17.text(0.5, 0.4, '2.3m', ...)",
  .exprCall "ax17.text(0.5, 0.1, 'Target: <5m', ...)",
  .exprCall "ax17.set_xlim(0, 1)",
  .exprCall "ax17.set_ylim(0, 1)",
  .exprCall "ax17.axis('off')",
  .assign "ax18" "fig.add_subplot(gs[5, 4])",
  .exprCall "ax18.set_facecolor(panel_bg)",
  .exprCall "ax18.text(0.5, 0.85, 'Model Summary', ...)",
  .assign "table_data" "[['Model', 'RPS', 'Latency'], ['Llama-2-7B', '245', '95ms'], ['Mistral-7B', '189', '87ms'], ['CodeLlama', '156', '102ms']]"]


/-- `src/generate_mockup.py`, statements in source order, part 11. -/
def modulePart11 : List PyStmt := [
  .forLoop "for i, row in enumerate(table_data)" [
    .assign "y_pos" "0.7 - i * 0.15",
    .ifElse "i == 0"
      [.exprCall "ax18.text(0.1, y_pos, ' | '.join(row), ha='left', va='center', fontsize=8, fontweight='bold', color=text_color)"]
      [.exprCall "ax18.text(0.1, y_pos, ' | '.join(row), ha='left', va='center', fontsize=8, color=text_color)"]],
  .exprCall "ax18.text(0.5, 0.05, 'Page 1 of 3 (10/page)', ...)",
  .exprCall "ax18.set_xlim(0, 1)",
  .exprCall "ax18.set_ylim(0, 1)",
  .exprCall "ax18.axis('off')",
  .exprCall "plt.figtext(0.02, 0.02, '© 2024 Red Hat, Inc. | OpenShift AI + llm-d', fontsize=10, color='#888888', alpha=0.7)",
  .exprCall "plt.figtext(0.02, 0.92, 'Perses', fontsize=16, fontweight='bold', color=red_hat_red)",
  .exprCall "plt.figtext(0.15, 0.92, 'Datasource: prometheus-llm-d', fontsize=12, color='#888888')",
  .exprCall "plt.tight_layout()",
  .savefigCall "/Users/jeder/repos/perses-llm-d/dashboard-mockup.png",
  .exprCall "plt.close()",
  .printCall "Dashboard mockup generated successfully: dashboard-mockup.png",
  .printCall "Resolution: 6000x4200 pixels (300 DPI)",
  .printCall "File size: ~2-3MB"]


/-- `src/generate_mockup.py`, top to bottom: every top-level statement of the
module in source order, loop and branch bodies nested. -/
def generateMockupModule : List PyStmt :=
  modulePart1 ++ modulePart2 ++ modulePart3 ++ modulePart4 ++ modulePart5 ++ modulePart6 ++ modulePart7 ++ modulePart8 ++ modulePart9 ++ modulePart10 ++ modulePart11

mutual
/-- Every statement of a statement list, loop and branch bodies included. -/
def allStmtsStmt : PyStmt → List PyStmt
  | .forLoop h b => .forLoop h b :: allStmtsList b
  | .ifElse c t e => .ifElse c t e :: (allStmtsList t ++ allStmtsList e)
  | .funcDef n b => .funcDef n b :: allStmtsList b
  | .classDef n b => .classDef n b :: allStmtsList b
  | .tryExcept b h => .tryExcept b h :: (allStmtsList b ++ allStmtsList h)
  | s => [s]
def allStmtsList : List PyStmt → List PyStmt
  | [] => []
  | s :: rest => allStmtsStmt s ++ allStmtsList rest
end

def isFuncDef : PyStmt → Bool
  | .funcDef _ _ => true
  | _ => false

def isClassDef : PyStmt → Bool
  | .classDef _ _ => true
  | _ => false

def isTryStmt : PyStmt → Bool
  | .tryExcept _ _ => true
  | _ => false

/-- Whether any statement, at any nesting depth, defines a function. -/
def hasFuncDef (l : List PyStmt) : Bool := (allStmtsList l).any isFuncDef

/-- Whether any statement, at any nesting depth, defines a class. -/
def hasClassDef (l : List PyStmt) : Bool := (allStmtsList l).any isClassDef

/-- Whether any statement, at any nesting depth, handles exceptions. -/
def hasTry (l : List PyStmt) : Bool := (allStmtsList l).any isTryStmt

mutual
/-- Abstract execution against an oracle saying which statements fail when
they run: a statement sequence succeeds when every statement it runs
succeeds; only a `try` can absorb a failure (its handler then runs instead).
A `for` body is modelled as running once and an `if` as requiring both
branches, which is failure-equivalent for this module: its loops and branch
split contain no failure-absorbing construct. -/
def execStmt (fails : PyStmt → Bool) : PyStmt → Bool
  | .tryExcept b h =>
    if execList fails b then true else execList fails h
  | .forLoop hd b => !(fails (.forLoop hd b)) && execList fails b
  | .ifElse c t e => !(fails (.ifElse c t e)) && execList fails t && execList fails e
  | .classDef n b => !(fails (.classDef n b)) && execList fails b
  | s => !(fails s)
def execList (fails : PyStmt → Bool) : List PyStmt → Bool
  | [] => true
  | s :: rest => execStmt fails s && execList fails rest
end

/-- The externally observable effects of the chart script: the figure file it
writes and the lines it prints. -/
inductive Effect where
  | savefig (path : String)
  | stdout (msg : String)
deriving DecidableEq

mutual
/-- The observable effects a statement performs, in order.  Function bodies
do not run at definition time; a loop body's effects are listed once and an
`if` contributes both branches — exact for this module, whose loops and
branches perform no file write or print. -/
def effectsStmt : PyStmt → List Effect
  | .savefigCall p => [.savefig p]
  | .printCall m => [.stdout m]
  | .forLoop _ b => effectsList b
  | .ifElse _ t e => effectsList t ++ effectsList e
  | .classDef _ b => effectsList b
  | .tryExcept b h => effectsList b ++ effectsList h
  | _ => []
def effectsList : List PyStmt → List Effect
  | [] => []
  | s :: rest => effectsStmt s ++ effectsList rest
end

/-- A run of the chart script.  The script reads neither command-line
arguments nor the environment, so the run ignores both. -/
def run (_argv : List String) (_env : String → Option String) : List Effect :=
  effectsList generateMockupModule

/-- The one destination `plt.savefig` names. -/
def fixedPath : String := "/Users/jeder/repos/perses-llm-d/dashboard-mockup.png"

/-- The success message `print` emits first. -/
def successMessage : String :=
  "Dashboard mockup generated successfully: dashboard-mockup.png"

end Mockup

/-! Helper lemmas for the Menuconfig theorems. -/

namespace Menuconfig

theorem modifyAt_modifyAt (f g : α → α) (i : Nat) (xs : List α) :
    modifyAt f i (modifyAt g i xs) = modifyAt (fun x => f (g x)) i xs := by
  induction xs generalizing i with
  | nil => cases i <;> rfl
  | cons x xs ih =>
    cases i with
    | zero => rfl
    | succ n => simp [modifyAt, ih]

theorem modifyAt_id (f : α → α) (h : ∀ x, f x = x) (i : Nat) (xs : List α) :
    modifyAt f i xs = xs := by
  induction xs generalizing i with
  | nil => cases i <;> rfl
  | cons x xs ih =>
    cases i with
    | zero => simp [modifyAt, h]
    | succ n => simp [modifyAt, ih]

theorem toggleSec_involutive (p : List Nat) :
    ∀ s, toggleSec p (toggleSec p s) = s := by
  induction p with
  | nil =>
    intro s; cases s with
    | mk l t a b e cl cs => simp [toggleSec]
  | cons i p ih =>
    intro s; cases s with
    | mk l t a b e cl cs =>
      simp [toggleSec, modifyAt_modifyAt]
      exact modifyAt_id _ ih _ _

theorem toggleForest_involutive (p : List Nat) (F : List Section) :
    toggleForest p (toggleForest p F) = F := by
  cases p with
  | nil => rfl
  | cons i p =>
    simp [toggleForest, modifyAt_modifyAt]
    exact modifyAt_id _ (toggleSec_involutive p) _ _

theorem flattenSec_eq (s : Section) :
    flattenSec s = s :: flattenForest s.children := by
  cases s with
  | mk l t a b e cl cs => rfl

theorem tileSec_eq (s : Section) :
    tileSec s = (s.enabled && decide (s.line_start ≤ s.line_end) &&
      s.children.all (fun c => decide (s.line_start < c.line_start)) &&
      chainTile (s.line_end + 1) s.children) := by
  cases s with
  | mk l t a b e cl cs => rfl

theorem chainTile_nil (stop : Nat) : chainTile stop [] = true := rfl

theorem chainTile_cons (stop : Nat) (s : Section) (rest : List Section) :
    chainTile stop (s :: rest) =
      (tileSec s &&
        (match rest with
         | [] => decide (s.line_end + 1 = stop)
         | d :: _ => decide (s.line_end + 1 = d.line_start)) &&
        chainTile stop rest) := rfl

theorem tile_le {s : Section} (h : tileSec s = true) :
    s.line_start ≤ s.line_end := by
  rw [tileSec_eq] at h
  simp at h
  exact h.1.1.2

theorem tile_enabled {s : Section} (h : tileSec s = true) :
    s.enabled = true := by
  rw [tileSec_eq] at h
  simp at h
  exact h.1.1.1

theorem tile_children_chain {s : Section} (h : tileSec s = true) :
    chainTile (s.line_end + 1) s.children = true := by
  rw [tileSec_eq] at h
  simp at h
  exact h.2

theorem tile_children_gt {s : Section} (h : tileSec s = true) :
    ∀ c ∈ s.children, s.line_start < c.line_start := by
  rw [tileSec_eq] at h
  simp at h
  exact h.1.2

theorem chainTile_elem {stop : Nat} :
    ∀ {cs : List Section}, chainTile stop cs = true →
      ∀ c ∈ cs, tileSec c = true ∧ c.line_end < stop := by
  intro cs
  induction cs with
  | nil => intro _ c hc; cases hc
  | cons s rest ih =>
    intro h c hc
    rw [chainTile_cons] at h
    simp only [Bool.and_eq_true] at h
    obtain ⟨⟨h1, h2⟩, h3⟩ := h
    have hsend : s.line_end < stop := by
      cases rest with
      | nil => simp at h2; omega
      | cons d rest' =>
        simp at h2
        have hd := ih h3 d (by simp)
        have := tile_le hd.1
        omega
    cases hc with
    | head => exact ⟨h1, hsend⟩
    | tail _ hm => exact ih h3 c hm

theorem chainTile_pairwise {stop : Nat} :
    ∀ {s : Section} {rest : List Section},
      chainTile stop (s :: rest) = true →
      ∀ d ∈ rest, s.line_end < d.line_start := by
  intro s rest
  induction rest generalizing s with
  | nil => intro _ d hd; cases hd
  | cons d rest' ih =>
    intro h t ht
    rw [chainTile_cons] at h
    simp only [Bool.and_eq_true] at h
    obtain ⟨⟨h1, h2⟩, h3⟩ := h
    simp at h2
    have hdle : s.line_end < d.line_start := by omega
    cases ht with
    | head => exact hdle
    | tail _ hm =>
      have hd := chainTile_elem h3 d (by simp)
      have h4 := ih h3 t hm
      have := tile_le hd.1
      omega

theorem chainTile_tail {stop : Nat} {s : Section} {rest : List Section}
    (h : chainTile stop (s :: rest) = true) : chainTile stop rest = true := by
  rw [chainTile_cons] at h
  simp only [Bool.and_eq_true] at h
  exact h.2

theorem mem_flattenForest {t : Section} :
    ∀ {cs : List Section}, t ∈ flattenForest cs ↔ ∃ c ∈ cs, t ∈ flattenSec c := by
  intro cs
  induction cs with
  | nil => simp [flattenForest]
  | cons s rest ih => simp [flattenForest, ih]

theorem self_mem_flattenSec (s : Section) : s ∈ flattenSec s := by
  rw [flattenSec_eq]; exact List.mem_cons_self s _

theorem secSize_eq (s : Section) : secSize s = 1 + forestSize s.children := by
  cases s with
  | mk l t a b e cl cs => rfl

theorem secSize_pos (s : Section) : 1 ≤ secSize s := by
  rw [secSize_eq]; omega

theorem secSize_le_forestSize {c : Section} :
    ∀ {cs : List Section}, c ∈ cs → secSize c ≤ forestSize cs := by
  intro cs
  induction cs with
  | nil => intro h; cases h
  | cons s rest ih =>
    intro h
    rw [forestSize]
    cases h with
    | head => omega
    | tail _ hm => have := ih hm; omega

theorem tile_bounds :
    ∀ n, ∀ s : Section, secSize s ≤ n → tileSec s = true →
      ∀ t ∈ flattenSec s,
        s.line_start ≤ t.line_start ∧ t.line_start ≤ s.line_end ∧
          t.line_end ≤ s.line_end ∧ tileSec t = true := by
  intro n
  induction n with
  | zero => intro s hsz; have := secSize_pos s; omega
  | succ n ih =>
    intro s hsz hts t ht
    rw [flattenSec_eq] at ht
    cases ht with
    | head => exact ⟨Nat.le_refl _, tile_le hts, Nat.le_refl _, hts⟩
    | tail _ hm =>
      obtain ⟨c, hc, htc⟩ := mem_flattenForest.1 hm
      have hcd := chainTile_elem (tile_children_chain hts) c hc
      have hcgt := tile_children_gt hts c hc
      have hcsz : secSize c ≤ n := by
        have h1 := secSize_le_forestSize hc
        have h2 := secSize_eq s
        omega
      have hb := ih c hcsz hcd.1 t htc
      have hcle : c.line_end ≤ s.line_end := by
        have := hcd.2; omega
      exact ⟨by omega, by omega, by omega, hb.2.2.2⟩

theorem narrowFold_le (ls : Nat) :
    ∀ (l : List Section) (e0 : Nat),
      l.foldl (fun e t =>
        if ls < t.line_start && t.line_start < e then t.line_start else e) e0 ≤ e0 := by
  intro l
  induction l with
  | nil => intro e0; exact Nat.le_refl _
  | cons t rest ih =>
    intro e0
    simp only [List.foldl_cons]
    by_cases h : (ls < t.line_start && t.line_start < e0) = true
    · rw [if_pos h]
      simp at h
      exact Nat.le_trans (ih _) (Nat.le_of_lt h.2)
    · rw [if_neg h]
      exact ih _

theorem narrowFold_gt (ls : Nat) :
    ∀ (l : List Section) (e0 : Nat), ls < e0 →
      ls < l.foldl (fun e t =>
        if ls < t.line_start && t.line_start < e then t.line_start else e) e0 := by
  intro l
  induction l with
  | nil => intro e0 h; exact h
  | cons t rest ih =>
    intro e0 h
    simp only [List.foldl_cons]
    by_cases hc : (ls < t.line_start && t.line_start < e0) = true
    · rw [if_pos hc]
      simp at hc
      exact ih _ hc.1
    · rw [if_neg hc]
      exact ih _ h

theorem narrowFold_le_mem (ls : Nat) {t : Section} :
    ∀ (l : List Section) (e0 : Nat), t ∈ l → ls < t.line_start →
      l.foldl (fun e u =>
        if ls < u.line_start && u.line_start < e then u.line_start else e) e0 ≤
        t.line_start := by
  intro l
  induction l with
  | nil => intro e0 h; cases h
  | cons u rest ih =>
    intro e0 hm hls
    simp only [List.foldl_cons]
    cases hm with
    | head =>
      by_cases hc : (ls < t.line_start && t.line_start < e0) = true
      · rw [if_pos hc]
        exact narrowFold_le ls rest _
      · rw [if_neg hc]
        simp [hls] at hc
        exact Nat.le_trans (narrowFold_le ls rest _) hc
    | tail _ hm' => exact ih _ hm' hls

theorem narrowFold_lb (ls m : Nat) :
    ∀ (l : List Section) (e0 : Nat),
      (∀ t ∈ l, ls < t.line_start → t.line_start < e0 → m ≤ t.line_start) →
      m ≤ e0 →
      m ≤ l.foldl (fun e t =>
        if ls < t.line_start && t.line_start < e then t.line_start else e) e0 := by
  intro l
  induction l with
  | nil => intro e0 _ h; exact h
  | cons t rest ih =>
    intro e0 hall hm
    simp only [List.foldl_cons]
    by_cases hc : (ls < t.line_start && t.line_start < e0) = true
    · rw [if_pos hc]
      simp at hc
      refine ih _ (fun u hu h1 h2 => hall u (by simp [hu]) h1 (by omega)) ?_
      exact hall t (by simp) hc.1 hc.2
    · rw [if_neg hc]
      refine ih _ (fun u hu h1 h2 => hall u (by simp [hu]) h1 h2) hm

theorem narrowEnd_le (flat : List Section) (ls le : Nat) :
    narrowEnd flat ls le ≤ le + 1 :=
  narrowFold_le ls flat (le + 1)

theorem narrowEnd_gt (flat : List Section) {ls le : Nat} (h : ls ≤ le) :
    ls < narrowEnd flat ls le :=
  narrowFold_gt ls flat (le + 1) (by omega)

theorem narrowSec_eq (flat : List Section) (lines : List Line) (s : Section) :
    narrowSec flat lines s =
      .mk s.level s.title s.line_start (narrowEnd flat s.line_start s.line_end - 1)
        s.enabled (sliceLines lines s.line_start (narrowEnd flat s.line_start s.line_end))
        (narrowForest flat lines s.children) := by
  cases s with
  | mk l t a b e cl cs => rfl

theorem narrowForest_eq_map (flat : List Section) (lines : List Line) :
    ∀ F : List Section, narrowForest flat lines F = F.map (narrowSec flat lines) := by
  intro F
  induction F with
  | nil => rfl
  | cons s rest ih => rw [narrowForest, ih]; rfl

theorem narrowSec_fields (flat : List Section) (lines : List Line) (s : Section) :
    (narrowSec flat lines s).line_start = s.line_start ∧
    (narrowSec flat lines s).level = s.level ∧
    (narrowSec flat lines s).title = s.title ∧
    (narrowSec flat lines s).enabled = s.enabled ∧
    (narrowSec flat lines s).children = narrowForest flat lines s.children := by
  cases s with
  | mk l t a b e cl cs => exact ⟨rfl, rfl, rfl, rfl, rfl⟩

theorem narrowSec_le_bounds (flat : List Section) (lines : List Line)
    {s : Section} (h : tileSec s = true) :
    s.line_start ≤ (narrowSec flat lines s).line_end ∧
      (narrowSec flat lines s).line_end ≤ s.line_end := by
  rw [narrowSec_eq]
  have h1 := narrowEnd_gt flat (tile_le h)
  have h2 := narrowEnd_le flat s.line_start s.line_end
  constructor
  · show s.line_start ≤ narrowEnd flat s.line_start s.line_end - 1
    omega
  · show narrowEnd flat s.line_start s.line_end - 1 ≤ s.line_end
    omega

theorem flattenForest_narrow (flat : List Section) (lines : List Line) :
    ∀ (n : Nat) (F : List Section), forestSize F ≤ n →
      flattenForest (narrowForest flat lines F) =
        (flattenForest F).map (narrowSec flat lines) := by
  intro n
  induction n with
  | zero =>
    intro F hF
    cases F with
    | nil => rfl
    | cons s rest => have := secSize_pos s; rw [forestSize] at hF; omega
  | succ n ih =>
    intro F hF
    cases F with
    | nil => rfl
    | cons s rest =>
      rw [forestSize] at hF
      have hs := secSize_eq s
      rw [narrowForest, flattenForest, flattenForest]
      rw [flattenSec_eq, flattenSec_eq]
      have hch := (narrowSec_fields flat lines s).2.2.2.2
      rw [hch]
      rw [ih s.children (by omega), ih rest (by omega)]
      simp

theorem sibOKForest_cons (s : Section) (rest : List Section) :
    sibOKForest (s :: rest) =
      (sibOKSec s && rest.all (fun t => decide (s.line_end < t.line_start)) &&
        sibOKForest rest) := rfl

theorem sibOKSec_eq (s : Section) :
    sibOKSec s = (decide (s.line_start ≤ s.line_end) && sibOKForest s.children) := by
  cases s with
  | mk l t a b e cl cs => rfl

theorem nestLowerForest_cons (s : Section) (rest : List Section) :
    nestLowerForest (s :: rest) = (nestLowerSec s && nestLowerForest rest) := rfl

theorem nestLowerSec_eq (s : Section) :
    nestLowerSec s =
      ((flattenForest s.children).all (fun d => decide (s.line_start < d.line_start)) &&
        nestLowerForest s.children) := by
  cases s with
  | mk l t a b e cl cs => rfl

theorem nestClaimForest_cons (s : Section) (rest : List Section) :
    nestClaimForest (s :: rest) = (nestClaimSec s && nestClaimForest rest) := rfl

theorem nestClaimSec_eq (s : Section) :
    nestClaimSec s =
      ((flattenForest s.children).all
        (fun d => decide (s.line_start < d.line_start) &&
          decide (d.line_start ≤ s.line_end)) &&
        nestClaimForest s.children) := by
  cases s with
  | mk l t a b e cl cs => rfl

theorem descendant_gt {s : Section} (h : tileSec s = true) :
    ∀ d ∈ flattenForest s.children,
      s.line_start < d.line_start ∧ d.line_start ≤ s.line_end := by
  intro d hd
  obtain ⟨c, hc, hdc⟩ := mem_flattenForest.1 hd
  have hcd := chainTile_elem (tile_children_chain h) c hc
  have hcgt := tile_children_gt h c hc
  have hb := tile_bounds (secSize c) c (Nat.le_refl _) hcd.1 d hdc
  have : c.line_end ≤ s.line_end := by have := hcd.2; omega
  exact ⟨by omega, by omega⟩

theorem sibOK_narrow (flat : List Section) (lines : List Line) :
    ∀ (n : Nat) (F : List Section) (stop : Nat), forestSize F ≤ n →
      chainTile stop F = true →
      sibOKForest (narrowForest flat lines F) = true := by
  intro n
  induction n with
  | zero =>
    intro F stop hF _
    cases F with
    | nil => rfl
    | cons s rest => have := secSize_pos s; rw [forestSize] at hF; omega
  | succ n ih =>
    intro F stop hF hc
    cases F with
    | nil => rfl
    | cons s rest =>
      rw [forestSize] at hF
      have hsz := secSize_eq s
      have hts := (chainTile_elem hc s (by simp)).1
      rw [narrowForest, sibOKForest_cons]
      simp only [Bool.and_eq_true]
      refine ⟨⟨?_, ?_⟩, ?_⟩
      · rw [sibOKSec_eq]
        simp only [Bool.and_eq_true]
        have hb := narrowSec_le_bounds flat lines hts
        have hls := (narrowSec_fields flat lines s).1
        refine ⟨by simp; omega, ?_⟩
        rw [(narrowSec_fields flat lines s).2.2.2.2]
        exact ih s.children (s.line_end + 1) (by omega) (tile_children_chain hts)
      · rw [List.all_eq_true]
        intro t' ht'
        rw [narrowForest_eq_map] at ht'
        obtain ⟨t, ht, rfl⟩ := List.mem_map.1 ht'
        have hp := chainTile_pairwise hc t ht
        have hb := narrowSec_le_bounds flat lines hts
        have hls := (narrowSec_fields flat lines t).1
        simp [hls]
        have hse := (narrowSec_fields flat lines s).1
        omega
      · exact ih rest stop (by have := secSize_pos s; omega) (chainTile_tail hc)

theorem nestLower_narrow (flat : List Section) (lines : List Line) :
    ∀ (n : Nat) (F : List Section) (stop : Nat), forestSize F ≤ n →
      chainTile stop F = true →
      nestLowerForest (narrowForest flat lines F) = true := by
  intro n
  induction n with
  | zero =>
    intro F stop hF _
    cases F with
    | nil => rfl
    | cons s rest => have := secSize_pos s; rw [forestSize] at hF; omega
  | succ n ih =>
    intro F stop hF hc
    cases F with
    | nil => rfl
    | cons s rest =>
      rw [forestSize] at hF
      have hsz := secSize_eq s
      have hts := (chainTile_elem hc s (by simp)).1
      rw [narrowForest, nestLowerForest_cons]
      simp only [Bool.and_eq_true]
      constructor
      · rw [nestLowerSec_eq]
        simp only [Bool.and_eq_true]
        rw [(narrowSec_fields flat lines s).2.2.2.2]
        constructor
        · rw [List.all_eq_true]
          intro d' hd'
          rw [flattenForest_narrow flat lines (forestSize s.children) _ (Nat.le_refl _)] at hd'
          obtain ⟨d, hd, rfl⟩ := List.mem_map.1 hd'
          have hb := (descendant_gt hts d hd).1
          have h1 := (narrowSec_fields flat lines d).1
          have h2 := (narrowSec_fields flat lines s).1
          simp [h1]
          omega
        · exact ih s.children (s.line_end + 1) (by omega) (tile_children_chain hts)
      · exact ih rest stop (by have := secSize_pos s; omega) (chainTile_tail hc)

theorem nestClaim_pass1 :
    ∀ (n : Nat) (F : List Section) (stop : Nat), forestSize F ≤ n →
      chainTile stop F = true → nestClaimForest F = true := by
  intro n
  induction n with
  | zero =>
    intro F stop hF _
    cases F with
    | nil => rfl
    | cons s rest => have := secSize_pos s; rw [forestSize] at hF; omega
  | succ n ih =>
    intro F stop hF hc
    cases F with
    | nil => rfl
    | cons s rest =>
      rw [forestSize] at hF
      have hsz := secSize_eq s
      have hts := (chainTile_elem hc s (by simp)).1
      rw [nestClaimForest_cons]
      simp only [Bool.and_eq_true]
      constructor
      · rw [nestClaimSec_eq]
        simp only [Bool.and_eq_true]
        constructor
        · rw [List.all_eq_true]
          intro d hd
          have hb := descendant_gt hts d hd
          simp
          omega
        · exact ih s.children (s.line_end + 1) (by omega) (tile_children_chain hts)
      · exact ih rest stop (by have := secSize_pos s; omega) (chainTile_tail hc)

theorem chainTile_append_one {stop : Nat} {c : Section}
    (htc : tileSec c = true) (hce : c.line_end + 1 = stop) :
    ∀ xs : List Section, chainTile c.line_start xs = true →
      chainTile stop (xs ++ [c]) = true := by
  intro xs
  induction xs with
  | nil =>
    intro _
    simp [chainTile_cons, chainTile_nil, htc, hce]
  | cons x rest ih =>
    intro h
    rw [chainTile_cons] at h
    simp only [Bool.and_eq_true] at h
    obtain ⟨⟨h1, h2⟩, h3⟩ := h
    rw [List.cons_append, chainTile_cons]
    simp only [Bool.and_eq_true]
    refine ⟨⟨h1, ?_⟩, ih h3⟩
    cases rest with
    | nil => simpa using h2
    | cons d rest' => simpa using h2

theorem revChain_chainTile :
    ∀ (l : List Section) (stop : Nat), RevChain stop l →
      chainTile stop l.reverse = true := by
  intro l
  induction l with
  | nil => intro stop _; rfl
  | cons s rest ih =>
    intro stop h
    obtain ⟨h1, h2, h3⟩ := h
    rw [List.reverse_cons]
    exact chainTile_append_one h1 h2 _ (ih _ h3)

theorem closeFrame_fields (f : Frame) (e : Nat) :
    (closeFrame f e).level = f.level ∧ (closeFrame f e).title = f.title ∧
      (closeFrame f e).line_start = f.line_start ∧
      (closeFrame f e).line_end = e ∧ (closeFrame f e).enabled = true ∧
      (closeFrame f e).children = f.childrenRev.reverse :=
  ⟨rfl, rfl, rfl, rfl, rfl, rfl⟩

theorem tileSec_closeFrame {f : Frame} {e : Nat}
    (hle : f.line_start ≤ e)
    (hch : RevChain (e + 1) f.childrenRev)
    (hgt : ∀ c ∈ f.childrenRev, f.line_start < c.line_start) :
    tileSec (closeFrame f e) = true := by
  rw [tileSec_eq]
  simp only [Bool.and_eq_true]
  refine ⟨⟨⟨rfl, by simpa using hle⟩, ?_⟩, ?_⟩
  · rw [List.all_eq_true]
    intro c hc
    rw [(closeFrame_fields f e).2.2.2.2.2] at hc
    have h1 := hgt c (List.mem_reverse.1 hc)
    have h2 := (closeFrame_fields f e).2.2.1
    simp [h2, h1]
  · show chainTile ((closeFrame f e).line_end + 1) (closeFrame f e).children = true
    rw [(closeFrame_fields f e).2.2.2.1, (closeFrame_fields f e).2.2.2.2.2]
    exact revChain_chainTile _ _ hch

theorem popAttach_ok :
    ∀ (stack : List Frame) (roots : List Section) (lvl e : Nat) (s : Section),
      FramesOK s.line_start stack roots → tileSec s = true → s.line_end = e →
      FramesOK (e + 1) (popAttach lvl e s stack roots).1
        (popAttach lvl e s stack roots).2 := by
  intro stack
  induction stack with
  | nil =>
    intro roots lvl e s hfo hts hse
    show FramesOK (e + 1) [] (s :: roots)
    exact ⟨hts, by omega, hfo⟩
  | cons g gs ih =>
    intro roots lvl e s hfo hts hse
    obtain ⟨hlt, hrc, hgt, hfo'⟩ := hfo
    have hsle := tile_le hts
    have hrc' : RevChain (e + 1) (s :: g.childrenRev) := ⟨hts, by omega, hrc⟩
    have hgt' : ∀ c ∈ (g.addChild s).childrenRev,
        (g.addChild s).line_start < c.line_start := by
      intro c hc
      have hch : (g.addChild s).childrenRev = s :: g.childrenRev := rfl
      rw [hch] at hc
      show g.line_start < c.line_start
      cases hc with
      | head => exact hlt
      | tail _ hm => exact hgt _ hm
    rw [popAttach]
    by_cases hc : lvl ≤ g.level
    · rw [if_pos hc]
      have htc : tileSec (closeFrame (g.addChild s) e) = true :=
        tileSec_closeFrame (by show g.line_start ≤ e; omega) hrc' hgt'
      have hfo2 : FramesOK (closeFrame (g.addChild s) e).line_start gs roots := hfo'
      exact ih roots lvl e _ hfo2 htc rfl
    · rw [if_neg hc]
      exact ⟨by show g.line_start < e + 1; omega, hrc', hgt', hfo'⟩

theorem popGE_ok (stack : List Frame) (roots : List Section) (lvl e : Nat)
    (h : FramesOK (e + 1) stack roots) :
    FramesOK (e + 1) (popGE lvl e stack roots).1 (popGE lvl e stack roots).2 := by
  cases stack with
  | nil => exact h
  | cons f rest =>
    obtain ⟨hlt, hrc, hgt, hfo⟩ := h
    rw [popGE]
    by_cases hc : lvl ≤ f.level
    · rw [if_pos hc]
      have htc : tileSec (closeFrame f e) = true :=
        tileSec_closeFrame (by omega) hrc hgt
      exact popAttach_ok rest roots lvl e _ hfo htc rfl
    · rw [if_neg hc]
      exact ⟨hlt, hrc, hgt, hfo⟩

theorem popAttach_zero :
    ∀ (stack : List Frame) (roots : List Section) (e : Nat) (s : Section),
      (popAttach 0 e s stack roots).1 = [] := by
  intro stack
  induction stack with
  | nil => intro roots e s; rfl
  | cons g gs ih =>
    intro roots e s
    rw [popAttach, if_pos (Nat.zero_le _)]
    exact ih roots e _

theorem popGE_zero (stack : List Frame) (roots : List Section) (e : Nat) :
    (popGE 0 e stack roots).1 = [] := by
  cases stack with
  | nil => rfl
  | cons f rest =>
    rw [popGE, if_pos (Nat.zero_le _)]
    exact popAttach_zero rest roots e _

theorem framesOK_empty_stack :
    ∀ {stop : Nat} {stack : List Frame} {roots : List Section},
      FramesOK stop stack roots → stack = [] → RevChain stop roots := by
  intro stop stack roots h he
  subst he
  exact h

theorem fenceStateAt_succ (lines : List Line) (k : Nat) (h : k < lines.length) :
    fenceStateAt lines (k + 1) =
      (if isFence (lines.getD k []) then !(fenceStateAt lines k)
       else fenceStateAt lines k) := by
  unfold fenceStateAt
  rw [List.take_succ, List.foldl_append]
  rw [List.getElem?_eq_getElem h]
  rw [List.getD_eq_getElem lines [] h]
  simp only [Option.toList_some, List.foldl_cons, List.foldl_nil]

theorem fenceStateAt_zero (lines : List Line) : fenceStateAt lines 0 = false := rfl

theorem scanStep_inv (lines : List Line) (k : Nat) (st : ScanState) (l : Line)
    (hk : k < lines.length) (hl : lines.getD k [] = l)
    (h : ScanInv lines k st) : ScanInv lines (k + 1) (scanStep st l) := by
  obtain ⟨hidx, hflag, hstack⟩ := h
  have hfs := fenceStateAt_succ lines k hk
  rw [hl] at hfs
  unfold scanStep
  by_cases hf : isFence l = true
  · rw [if_pos hf]
    refine ⟨by simp [hidx], ?_, ?_⟩
    · rw [hfs, if_pos hf, hflag]
    · show (st.stack = [] ∧ st.rootsRev = []) ∨ _
      rcases hstack with ⟨h1, h2⟩ | ⟨f, rest, h1, h2, h3, h4⟩
      · exact Or.inl ⟨h1, h2⟩
      · exact Or.inr ⟨f, rest, h1, h2, by omega, h4⟩
  · rw [if_neg hf]
    have hfs' : fenceStateAt lines (k + 1) = fenceStateAt lines k := by
      rw [hfs, if_neg hf]
    by_cases hic : st.in_code_block = true
    · rw [if_pos hic]
      refine ⟨by simp [hidx], by simp [hfs', hflag], ?_⟩
      rcases hstack with ⟨h1, h2⟩ | ⟨f, rest, h1, h2, h3, h4⟩
      · exact Or.inl ⟨h1, h2⟩
      · exact Or.inr ⟨f, rest, h1, h2, by omega, h4⟩
    · rw [if_neg hic]
      cases hph : parseHeader l with
      | none =>
        refine ⟨by simp [hidx], by simp [hfs', hflag], ?_⟩
        rcases hstack with ⟨h1, h2⟩ | ⟨f, rest, h1, h2, h3, h4⟩
        · exact Or.inl ⟨h1, h2⟩
        · exact Or.inr ⟨f, rest, h1, h2, by omega, h4⟩
      | some p =>
        obtain ⟨lvl, t⟩ := p
        have hfk : fenceStateAt lines k = false := by
          rw [← hflag]
          simpa using hic
        rcases hp : popGE lvl (st.idx - 1) st.stack st.rootsRev with ⟨stack1, roots1⟩
        simp only [hp]
        refine ⟨by simp [hidx], by rw [hfs', hfk], ?_⟩
        refine Or.inr ⟨⟨lvl, t, st.idx, []⟩, stack1, rfl, rfl, ?_, ?_⟩
        · show st.idx < k + 1
          omega
        show FramesOK st.idx stack1 roots1
        rcases hstack with ⟨h1, h2⟩ | ⟨f, rest, h1, h2, h3, h4⟩
        · rw [h1, h2] at hp
          rw [popGE] at hp
          cases hp
          exact trivial
        · have hk1 : 1 ≤ k := by omega
          have hfull : FramesOK k st.stack st.rootsRev := by
            rw [h1]
            refine ⟨h3, ?_, ?_, h4⟩
            · rw [h2]; exact trivial
            · rw [h2]; intro c hc; cases hc
          have heq0 : st.idx - 1 + 1 = k := by omega
          have hfull' : FramesOK (st.idx - 1 + 1) st.stack st.rootsRev := by
            rw [heq0]; exact hfull
          have hok := popGE_ok st.stack st.rootsRev lvl (st.idx - 1) hfull'
          rw [hp, heq0] at hok
          show FramesOK st.idx stack1 roots1
          rw [hidx]
          exact hok

theorem scan_go :
    ∀ (suf pre : List Line) (st : ScanState),
      ScanInv (pre ++ suf) pre.length st →
      ScanInv (pre ++ suf) (pre.length + suf.length) (suf.foldl scanStep st) := by
  intro suf
  induction suf with
  | nil =>
    intro pre st h
    simpa using h
  | cons l suf ih =>
    intro pre st h
    have hk : pre.length < (pre ++ l :: suf).length := by simp
    have hl : (pre ++ l :: suf).getD pre.length [] = l := by
      rw [List.getD_eq_getElem _ [] hk]
      rw [List.getElem_append_right (Nat.le_refl _)]
      simp
    have h1 := scanStep_inv _ _ _ _ hk hl h
    have h2 := ih (pre ++ [l]) (scanStep st l)
      (by simpa [List.append_assoc] using h1)
    rw [List.append_assoc] at h2
    simp only [List.cons_append, List.nil_append] at h2
    simp only [List.foldl_cons]
    have hlen : pre.length + (l :: suf).length = (pre ++ [l]).length + suf.length := by
      simp; omega
    rw [hlen]
    simpa using h2

theorem scanAll_inv (lines : List Line) :
    ScanInv lines lines.length (scanAll lines) := by
  have h0 : ScanInv lines 0 ⟨0, false, [], []⟩ :=
    ⟨rfl, rfl, Or.inl ⟨rfl, rfl⟩⟩
  have := scan_go lines [] ⟨0, false, [], []⟩ (by simpa using h0)
  simpa using this

theorem pass1_chain (lines : List Line) :
    chainTile lines.length (parsePass1 lines) = true := by
  have hinv := scanAll_inv lines
  obtain ⟨hidx, hflag, hstack⟩ := hinv
  simp only [parsePass1]
  rcases hstack with ⟨h1, h2⟩ | ⟨f, rest, h1, h2, h3, h4⟩
  · rw [h1, h2]
    rw [popGE]
    rfl
  · have hn1 : 1 ≤ lines.length := by omega
    have hfull : FramesOK lines.length (scanAll lines).stack (scanAll lines).rootsRev := by
      rw [h1]
      refine ⟨h3, ?_, ?_, h4⟩
      · rw [h2]; exact trivial
      · rw [h2]; intro c hc; cases hc
    have hok := popGE_ok (scanAll lines).stack (scanAll lines).rootsRev 0
      (lines.length - 1)
      (by
        have he : lines.length - 1 + 1 = lines.length := by omega
        rw [he]
        exact hfull)
    have hz := popGE_zero (scanAll lines).stack (scanAll lines).rootsRev (lines.length - 1)
    have heq : lines.length - 1 + 1 = lines.length := by omega
    rw [heq] at hok
    have hrc : RevChain lines.length
        (popGE 0 (lines.length - 1) (scanAll lines).stack (scanAll lines).rootsRev).2 := by
      have := hok
      rcases hpe : (popGE 0 (lines.length - 1) (scanAll lines).stack (scanAll lines).rootsRev)
        with ⟨st2, r2⟩
      rw [hpe] at this hz
      simp at hz
      rw [hz] at this
      simpa using this
    exact revChain_chainTile _ _ hrc

end Menuconfig

/-! Helper lemmas for the Mockup theorems. -/

namespace Mockup

mutual
theorem execStmt_eq (fails : PyStmt → Bool) :
    ∀ s : PyStmt, (∀ u ∈ allStmtsStmt s, isTryStmt u = false) →
      (∀ u ∈ allStmtsStmt s, isFuncDef u = false) →
      execStmt fails s = (allStmtsStmt s).all (fun u => !(fails u))
  | .imp t, _, _ => by simp [execStmt, allStmtsStmt]
  | .assign t e, _, _ => by simp [execStmt, allStmtsStmt]
  | .exprCall t, _, _ => by simp [execStmt, allStmtsStmt]
  | .savefigCall t, _, _ => by simp [execStmt, allStmtsStmt]
  | .printCall t, _, _ => by simp [execStmt, allStmtsStmt]
  | .forLoop h b, ht, hf => by
    have hb := execList_eq fails b
      (fun u hu => ht u (by simp [allStmtsStmt, hu]))
      (fun u hu => hf u (by simp [allStmtsStmt, hu]))
    simp [execStmt, allStmtsStmt, hb]
  | .ifElse c t e, ht, hf => by
    have h1 := execList_eq fails t
      (fun u hu => ht u (by simp [allStmtsStmt, hu]))
      (fun u hu => hf u (by simp [allStmtsStmt, hu]))
    have h2 := execList_eq fails e
      (fun u hu => ht u (by simp [allStmtsStmt, hu]))
      (fun u hu => hf u (by simp [allStmtsStmt, hu]))
    simp [execStmt, allStmtsStmt, h1, h2, Bool.and_assoc]
  | .funcDef n b, _, hf => by
    have := hf (.funcDef n b) (by simp [allStmtsStmt])
    simp [isFuncDef] at this
  | .classDef n b, ht, hf => by
    have hb := execList_eq fails b
      (fun u hu => ht u (by simp [allStmtsStmt, hu]))
      (fun u hu => hf u (by simp [allStmtsStmt, hu]))
    simp [execStmt, allStmtsStmt, hb]
  | .tryExcept b h, ht, _ => by
    have := ht (.tryExcept b h) (by simp [allStmtsStmt])
    simp [isTryStmt] at this
theorem execList_eq (fails : PyStmt → Bool) :
    ∀ l : List PyStmt, (∀ u ∈ allStmtsList l, isTryStmt u = false) →
      (∀ u ∈ allStmtsList l, isFuncDef u = false) →
      execList fails l = (allStmtsList l).all (fun u => !(fails u))
  | [], _, _ => by simp [execList, allStmtsList]
  | s :: rest, ht, hf => by
    have h1 := execStmt_eq fails s
      (fun u hu => ht u (by simp [allStmtsList, hu]))
      (fun u hu => hf u (by simp [allStmtsList, hu]))
    have h2 := execList_eq fails rest
      (fun u hu => ht u (by simp [allStmtsList, hu]))
      (fun u hu => hf u (by simp [allStmtsList, hu]))
    simp [execList, allStmtsList, h1, h2]
end


end Mockup

namespace Menuconfig

theorem mem_flattenForest_reverse {x : Section} (l : List Section) :
    x ∈ flattenForest l.reverse ↔ x ∈ flattenForest l := by
  simp [mem_flattenForest]

theorem stateHdrs_nil (roots : List Section) :
    stateHdrs [] roots = (flattenForest roots).map secHdr := rfl

theorem stateHdrs_cons (f : Frame) (rest : List Frame) (roots : List Section) :
    stateHdrs (f :: rest) roots =
      (f.line_start, f.level, f.title) ::
        ((flattenForest f.childrenRev).map secHdr ++ stateHdrs rest roots) := rfl

theorem secHdr_closeFrame (f : Frame) (e : Nat) :
    secHdr (closeFrame f e) = (f.line_start, f.level, f.title) := rfl

theorem flattenSec_closeFrame (f : Frame) (e : Nat) :
    flattenSec (closeFrame f e) =
      closeFrame f e :: flattenForest f.childrenRev.reverse := by
  rw [flattenSec_eq]
  rfl

theorem mem_map_flatten_reverse (x : Nat × Nat × Line) (l : List Section) :
    x ∈ (flattenForest l.reverse).map secHdr ↔
      x ∈ (flattenForest l).map secHdr := by
  simp only [List.mem_map]
  constructor
  · rintro ⟨u, hu, rfl⟩
    exact ⟨u, (mem_flattenForest_reverse l).1 hu, rfl⟩
  · rintro ⟨u, hu, rfl⟩
    exact ⟨u, (mem_flattenForest_reverse l).2 hu, rfl⟩

theorem popAttach_hdrs :
    ∀ (stack : List Frame) (roots : List Section) (lvl e : Nat) (s : Section) (x),
      x ∈ stateHdrs (popAttach lvl e s stack roots).1
          (popAttach lvl e s stack roots).2 ↔
        (x ∈ (flattenSec s).map secHdr ∨ x ∈ stateHdrs stack roots) := by
  intro stack
  induction stack with
  | nil =>
    intro roots lvl e s x
    show x ∈ stateHdrs [] (s :: roots) ↔ _
    rw [stateHdrs_nil, stateHdrs_nil, flattenForest, List.map_append,
      List.mem_append]
  | cons g gs ih =>
    intro roots lvl e s x
    rw [popAttach]
    have h2 : (g.addChild s).childrenRev = s :: g.childrenRev := rfl
    by_cases hc : lvl ≤ g.level
    · rw [if_pos hc, ih, flattenSec_closeFrame, stateHdrs_cons]
      rw [List.map_cons, secHdr_closeFrame, h2]
      rw [List.mem_cons, List.mem_cons, List.mem_append,
        mem_map_flatten_reverse, flattenForest, List.map_append, List.mem_append]
      tauto
    · rw [if_neg hc, stateHdrs_cons, stateHdrs_cons, h2]
      have h3 : (g.addChild s).line_start = g.line_start := rfl
      have h4 : (g.addChild s).level = g.level := rfl
      have h5 : (g.addChild s).title = g.title := rfl
      rw [h3, h4, h5, flattenForest, List.map_append]
      rw [List.mem_cons, List.mem_cons, List.mem_append, List.mem_append,
        List.mem_append]
      tauto

theorem popGE_hdrs (stack : List Frame) (roots : List Section) (lvl e : Nat)
    (x : Nat × Nat × Line) :
    x ∈ stateHdrs (popGE lvl e stack roots).1 (popGE lvl e stack roots).2 ↔
      x ∈ stateHdrs stack roots := by
  cases stack with
  | nil => rfl
  | cons f rest =>
    rw [popGE]
    by_cases hc : lvl ≤ f.level
    · rw [if_pos hc, popAttach_hdrs, flattenSec_closeFrame, stateHdrs_cons]
      rw [List.map_cons, secHdr_closeFrame]
      rw [List.mem_cons, List.mem_cons, List.mem_append, mem_map_flatten_reverse]
      tauto
    · rw [if_neg hc]

theorem scanStep_hdrs (lines : List Line) (k : Nat) (st : ScanState) (l : Line)
    (hk : k < lines.length) (hl : lines.getD k [] = l)
    (hscan : ScanInv lines k st) (h : HdrsInv lines k st) :
    HdrsInv lines (k + 1) (scanStep st l) := by
  obtain ⟨hidx, hflag, _⟩ := hscan
  obtain ⟨hsound, hcomp⟩ := h
  unfold scanStep
  by_cases hf : isFence l = true
  · rw [if_pos hf]
    refine ⟨fun x hx => ?_, fun i hi hd => ?_⟩
    · have := hsound x hx
      exact ⟨by omega, this.2⟩
    · rcases Nat.lt_or_ge i k with hik | hik
      · exact hcomp i hik hd
      · have : i = k := by omega
        subst this
        exfalso
        have h1 := hd.2.1
        rw [hl] at h1
        rw [h1] at hf
        exact Bool.false_ne_true hf
  · rw [if_neg hf]
    by_cases hic : st.in_code_block = true
    · rw [if_pos hic]
      refine ⟨fun x hx => ?_, fun i hi hd => ?_⟩
      · have := hsound x hx
        exact ⟨by omega, this.2⟩
      · rcases Nat.lt_or_ge i k with hik | hik
        · exact hcomp i hik hd
        · have : i = k := by omega
          subst this
          exfalso
          have h1 := hd.1
          rw [← hflag, hic] at h1
          simp at h1
    · rw [if_neg hic]
      cases hph : parseHeader l with
      | none =>
        refine ⟨fun x hx => ?_, fun i hi hd => ?_⟩
        · have := hsound x hx
          exact ⟨by omega, this.2⟩
        · rcases Nat.lt_or_ge i k with hik | hik
          · exact hcomp i hik hd
          · have : i = k := by omega
            subst this
            exfalso
            have h1 := hd.2.2
            rw [hl] at h1
            rw [isHeaderPattern, hph] at h1
            simp at h1
      | some p =>
        obtain ⟨lvl, t⟩ := p
        rcases hp : popGE lvl (st.idx - 1) st.stack st.rootsRev with ⟨stack1, roots1⟩
        simp only [hp]
        have hmem : ∀ x, x ∈ stateHdrs stack1 roots1 ↔
            x ∈ stateHdrs st.stack st.rootsRev := by
          intro x
          have := popGE_hdrs st.stack st.rootsRev lvl (st.idx - 1) x
          rw [hp] at this
          exact this
        have hfk : fenceStateAt lines k = false := by
          rw [← hflag]
          simpa using hic
        have hfl : flattenForest ([] : List Section) = [] := rfl
        have hf2 : isFence l = false := by simpa using hf
        refine ⟨fun x hx => ?_, fun i hi hd => ?_⟩
        · rw [stateHdrs_cons, List.mem_cons] at hx
          rcases hx with hx | hx
          · subst hx
            refine ⟨by simp [hidx], ?_, ?_, ?_⟩
            · show fenceStateAt lines st.idx = false
              rw [hidx]
              exact hfk
            · show isFence (lines.getD st.idx []) = false
              rw [hidx, hl]
              exact hf2
            · show parseHeader (lines.getD st.idx []) = some (lvl, t)
              rw [hidx, hl]
              exact hph
          · rw [hfl, List.map_nil, List.nil_append] at hx
            have := hsound x ((hmem x).1 hx)
            exact ⟨by omega, this.2⟩
        · rcases Nat.lt_or_ge i k with hik | hik
          · obtain ⟨lvl', t', hmem'⟩ := hcomp i hik hd
            refine ⟨lvl', t', ?_⟩
            rw [stateHdrs_cons, List.mem_cons]
            right
            rw [hfl, List.map_nil, List.nil_append]
            exact (hmem _).2 hmem'
          · have : i = k := by omega
            subst this
            refine ⟨lvl, t, ?_⟩
            rw [stateHdrs_cons, List.mem_cons]
            left
            rw [hidx]

theorem scan_go2 :
    ∀ (suf pre : List Line) (st : ScanState),
      ScanInv (pre ++ suf) pre.length st → HdrsInv (pre ++ suf) pre.length st →
      HdrsInv (pre ++ suf) (pre.length + suf.length) (suf.foldl scanStep st) := by
  intro suf
  induction suf with
  | nil =>
    intro pre st _ h
    simpa using h
  | cons l suf ih =>
    intro pre st hs h
    have hk : pre.length < (pre ++ l :: suf).length := by simp
    have hl : (pre ++ l :: suf).getD pre.length [] = l := by
      rw [List.getD_eq_getElem _ [] hk]
      rw [List.getElem_append_right (Nat.le_refl _)]
      simp
    have h1 := scanStep_inv _ _ _ _ hk hl hs
    have h2 := scanStep_hdrs _ _ _ _ hk hl hs h
    have h3 := ih (pre ++ [l]) (scanStep st l)
      (by simpa [List.append_assoc] using h1)
      (by simpa [List.append_assoc] using h2)
    rw [List.append_assoc] at h3
    simp only [List.cons_append, List.nil_append] at h3
    simp only [List.foldl_cons]
    have hlen : pre.length + (l :: suf).length = (pre ++ [l]).length + suf.length := by
      simp
      omega
    rw [hlen]
    simpa using h3

theorem scanAll_hdrs (lines : List Line) :
    HdrsInv lines lines.length (scanAll lines) := by
  have h0 : HdrsInv lines 0 ⟨0, false, [], []⟩ := by
    constructor
    · intro x hx
      rw [stateHdrs_nil] at hx
      simp [flattenForest] at hx
    · intro i hi
      omega
  have hs : ScanInv lines 0 ⟨0, false, [], []⟩ := ⟨rfl, rfl, Or.inl ⟨rfl, rfl⟩⟩
  have := scan_go2 lines [] ⟨0, false, [], []⟩ (by simpa using hs) (by simpa using h0)
  simpa using this

theorem pass1_hdrs_sound (lines : List Line) :
    ∀ s ∈ flattenForest (parsePass1 lines),
      s.line_start < lines.length ∧
        HeaderData lines s.line_start s.level s.title := by
  intro s hs
  have hinv := scanAll_hdrs lines
  simp only [parsePass1] at hs
  rw [mem_flattenForest_reverse] at hs
  have hx : secHdr s ∈ stateHdrs
      (popGE 0 (lines.length - 1) (scanAll lines).stack (scanAll lines).rootsRev).1
      (popGE 0 (lines.length - 1) (scanAll lines).stack (scanAll lines).rootsRev).2 := by
    have hz := popGE_zero (scanAll lines).stack (scanAll lines).rootsRev (lines.length - 1)
    rcases hpe : popGE 0 (lines.length - 1) (scanAll lines).stack (scanAll lines).rootsRev
      with ⟨st2, r2⟩
    rw [hpe] at hz
    simp at hz
    subst hz
    rw [hpe] at hs
    rw [stateHdrs_nil]
    exact List.mem_map_of_mem secHdr hs
  rw [popGE_hdrs] at hx
  exact hinv.1 (secHdr s) hx

theorem pass1_hdrs_complete (lines : List Line) (i : Nat)
    (hi : i < lines.length) (hd : headerDetectedAt lines i) :
    ∃ s ∈ flattenForest (parsePass1 lines), s.line_start = i ∧
      parseHeader (lines.getD i []) = some (s.level, s.title) := by
  have hinv := scanAll_hdrs lines
  obtain ⟨lvl, t, hmem⟩ := hinv.2 i hi hd
  have hx : (i, lvl, t) ∈ stateHdrs
      (popGE 0 (lines.length - 1) (scanAll lines).stack (scanAll lines).rootsRev).1
      (popGE 0 (lines.length - 1) (scanAll lines).stack (scanAll lines).rootsRev).2 := by
    rw [popGE_hdrs]
    exact hmem
  have hdata := hinv.1 (i, lvl, t) hmem
  have hz := popGE_zero (scanAll lines).stack (scanAll lines).rootsRev (lines.length - 1)
  rcases hpe : popGE 0 (lines.length - 1) (scanAll lines).stack (scanAll lines).rootsRev
    with ⟨st2, r2⟩
  rw [hpe] at hz hx
  simp at hz
  subst hz
  rw [stateHdrs_nil] at hx
  obtain ⟨s, hsmem, hshdr⟩ := List.mem_map.1 hx
  refine ⟨s, ?_, ?_, ?_⟩
  · simp only [parsePass1]
    rw [mem_flattenForest_reverse]
    rw [hpe]
    exact hsmem
  · have := congrArg Prod.fst hshdr
    simpa [secHdr] using this
  · have h1 : s.line_start = i := by
      have := congrArg Prod.fst hshdr
      simpa [secHdr] using this
    have h2 : s.level = lvl := by
      have := congrArg (fun p => p.2.1) hshdr
      simpa [secHdr] using this
    have h3 : s.title = t := by
      have := congrArg (fun p => p.2.2) hshdr
      simpa [secHdr] using this
    rw [h2, h3]
    exact hdata.2.2.2

theorem parse_secHdrs (lines : List Line) :
    (flattenForest (parse lines)).map secHdr =
      (flattenForest (parsePass1 lines)).map secHdr := by
  simp only [parse]
  rw [flattenForest_narrow _ _ (forestSize (parsePass1 lines)) _ (Nat.le_refl _)]
  rw [List.map_map]
  apply List.map_congr_left
  intro s _
  have hf := narrowSec_fields (flattenForest (parsePass1 lines)) lines s
  show secHdr (narrowSec _ _ s) = secHdr s
  unfold secHdr
  rw [hf.1, hf.2.1, hf.2.2.1]

theorem parse_hdrs_sound (lines : List Line) :
    ∀ s ∈ flattenForest (parse lines),
      s.line_start < lines.length ∧
        HeaderData lines s.line_start s.level s.title := by
  intro s hs
  have hx : secHdr s ∈ (flattenForest (parse lines)).map secHdr :=
    List.mem_map_of_mem secHdr hs
  rw [parse_secHdrs] at hx
  obtain ⟨u, hu, huh⟩ := List.mem_map.1 hx
  have := pass1_hdrs_sound lines u hu
  have h1 : u.line_start = s.line_start := congrArg Prod.fst huh
  have h2 : u.level = s.level := congrArg (fun p => p.2.1) huh
  have h3 : u.title = s.title := congrArg (fun p => p.2.2) huh
  rw [h1, h2, h3] at this
  exact this

theorem parse_hdrs_complete (lines : List Line) (i : Nat)
    (hi : i < lines.length) (hd : headerDetectedAt lines i) :
    ∃ s ∈ flattenForest (parse lines), s.line_start = i := by
  obtain ⟨u, hu, hui, _⟩ := pass1_hdrs_complete lines i hi hd
  have hx : secHdr u ∈ (flattenForest (parsePass1 lines)).map secHdr :=
    List.mem_map_of_mem secHdr hu
  rw [← parse_secHdrs] at hx
  obtain ⟨s, hs, hsh⟩ := List.mem_map.1 hx
  refine ⟨s, hs, ?_⟩
  have := congrArg Prod.fst hsh
  simp only [secHdr] at this
  omega

end Menuconfig

namespace Menuconfig

theorem fence_fold_parity :
    ∀ (l : List Line) (b : Bool),
      l.foldl (fun b x => if isFence x then !b else b) b =
        xor b ((l.countP isFence) % 2 == 1) := by
  intro l
  induction l with
  | nil => intro b; simp
  | cons x rest ih =>
    intro b
    simp only [List.foldl_cons, List.countP_cons]
    by_cases hf : isFence x = true
    · rw [if_pos hf, hf, ih]
      rcases Nat.mod_two_eq_zero_or_one (rest.countP isFence) with h | h
      · simp [Nat.add_mod, h]
      · simp [Nat.add_mod, h]
    · rw [if_neg hf, ih]
      simp at hf
      simp [hf]

theorem fenceStateAt_parity (lines : List Line) (i : Nat) :
    fenceStateAt lines i = (((lines.take i).countP isFence) % 2 == 1) := by
  unfold fenceStateAt
  rw [fence_fold_parity]
  simp

theorem fence_mem_take {lines : List Line} {f i : Nat}
    (hf : f < i) (hfl : f < lines.length) (hfence : isFence lines[f] = true) :
    0 < (lines.take i).countP isFence := by
  rw [List.countP_pos_iff]
  refine ⟨lines[f], ?_, hfence⟩
  have hlen : f < (lines.take i).length := by
    simp
    omega
  have h2 : (lines.take i).get ⟨f, hlen⟩ = lines.get ⟨f, hfl⟩ := by
    simp only [List.get_eq_getElem]
    exact List.getElem_take lines
  have h3 : lines.get ⟨f, hfl⟩ = lines[f] := rfl
  rw [← h3, ← h2]
  exact List.get_mem _ f hlen

theorem take_countP_le (lines : List Line) (i : Nat) :
    (lines.take i).countP isFence ≤ lines.countP isFence := by
  conv_rhs => rw [← List.take_append_drop i lines]
  rw [List.countP_append]
  omega

theorem flatten_trans :
    ∀ (n : Nat) (r : Section), secSize r ≤ n →
      ∀ s ∈ flattenSec r, ∀ t ∈ flattenSec s, t ∈ flattenSec r := by
  intro n
  induction n with
  | zero => intro r hr; have := secSize_pos r; omega
  | succ n ih =>
    intro r hr s hs t ht
    rw [flattenSec_eq] at hs
    cases hs with
    | head => exact ht
    | tail _ hm =>
      obtain ⟨c, hc, hsc⟩ := mem_flattenForest.1 hm
      have hcs : secSize c ≤ n := by
        have h1 := secSize_le_forestSize hc
        have h2 := secSize_eq r
        omega
      have := ih c hcs s hsc t ht
      rw [flattenSec_eq]
      right
      exact mem_flattenForest.2 ⟨c, hc, this⟩

theorem flatten_trans_forest {F : List Section} {s t : Section}
    (hs : s ∈ flattenForest F) (ht : t ∈ flattenSec s) : t ∈ flattenForest F := by
  obtain ⟨c, hc, hsc⟩ := mem_flattenForest.1 hs
  exact mem_flattenForest.2 ⟨c, hc, flatten_trans (secSize c) c (Nat.le_refl _) s hsc t ht⟩

theorem children_mem_flattenSec {s c : Section} (hc : c ∈ s.children) :
    c ∈ flattenSec s := by
  rw [flattenSec_eq]
  right
  exact mem_flattenForest.2 ⟨c, hc, self_mem_flattenSec c⟩

theorem chain_flatten_lb {b : Nat} {r : Section} {rest : List Section}
    (h : chainTile b (r :: rest) = true) :
    ∀ t ∈ flattenForest (r :: rest), r.line_start ≤ t.line_start := by
  intro t ht
  rw [flattenForest, List.mem_append] at ht
  rcases ht with ht | ht
  · have htr := (chainTile_elem h r (by simp)).1
    exact (tile_bounds (secSize r) r (Nat.le_refl _) htr t ht).1
  · obtain ⟨d, hd, htd⟩ := mem_flattenForest.1 ht
    have hpw := chainTile_pairwise h d hd
    have htd' := (chainTile_elem (chainTile_tail h) d hd).1
    have hb := tile_bounds (secSize d) d (Nat.le_refl _) htd' t htd
    have := tile_le ((chainTile_elem h r (by simp)).1)
    omega

theorem chain_flatten_tile {b : Nat} {F : List Section}
    (h : chainTile b F = true) :
    ∀ t ∈ flattenForest F, tileSec t = true ∧ t.line_end < b := by
  intro t ht
  obtain ⟨c, hc, htc⟩ := mem_flattenForest.1 ht
  have hcd := chainTile_elem h c hc
  have hb := tile_bounds (secSize c) c (Nat.le_refl _) hcd.1 t htc
  exact ⟨hb.2.2.2, by omega⟩

theorem windowD :
    ∀ (n : Nat) (F : List Section) (b : Nat), forestSize F ≤ n →
      chainTile b F = true →
      ∀ s ∈ flattenForest F, ∀ t ∈ flattenForest F,
        s.line_start < t.line_start → t.line_start ≤ s.line_end →
        ∃ c, (∃ cs', s.children = c :: cs') ∧ c.line_start ≤ t.line_start := by
  intro n
  induction n with
  | zero =>
    intro F b hF _ s hs
    cases F with
    | nil => rw [flattenForest] at hs; cases hs
    | cons r rest => have := secSize_pos r; rw [forestSize] at hF; omega
  | succ n ih =>
    intro F b hF hc s hs t ht hst hts
    cases F with
    | nil => rw [flattenForest] at hs; cases hs
    | cons r rest =>
      rw [forestSize] at hF
      have hsz := secSize_eq r
      have htr := (chainTile_elem hc r (by simp)).1
      rw [flattenForest, List.mem_append] at hs ht
      rcases hs with hs | hs
      · rcases ht with ht | ht
        · -- both inside r's subtree
          rw [flattenSec_eq, List.mem_cons] at hs ht
          rcases hs with hseq | hsm
          · rcases ht with hteq | htm
            · rw [hseq, hteq] at hst; omega
            · -- s = r, t strictly below r
              cases hch : r.children with
              | nil =>
                exfalso
                rw [hch, flattenForest] at htm
                cases htm
              | cons c cs' =>
                refine ⟨c, ⟨cs', by rw [hseq, hch]⟩, ?_⟩
                have hcc := tile_children_chain htr
                rw [hch] at hcc htm
                exact chain_flatten_lb hcc t htm
          · rcases ht with hteq | htm
            · -- t = r, s a strict descendant: contradiction
              exfalso
              cases hch : r.children with
              | nil =>
                rw [hch, flattenForest] at hsm
                cases hsm
              | cons c cs' =>
                have hcc := tile_children_chain htr
                rw [hch] at hcc hsm
                have h1 := chain_flatten_lb hcc s hsm
                have h2 := tile_children_gt htr c (by rw [hch]; simp)
                rw [hteq] at hst
                omega
            · -- both strict descendants of r: recurse into r's children
              have hcc := tile_children_chain htr
              exact ih r.children (r.line_end + 1)
                (by
                  have : forestSize r.children < secSize r := by
                    rw [secSize_eq]; omega
                  omega)
                hcc s hsm t htm hst hts
        · -- s inside r, t in the rest: impossible
          exfalso
          obtain ⟨d, hd, htd⟩ := mem_flattenForest.1 ht
          have hpw := chainTile_pairwise hc d hd
          have htd' := (chainTile_elem (chainTile_tail hc) d hd).1
          have hbt := tile_bounds (secSize d) d (Nat.le_refl _) htd' t htd
          have hbs := tile_bounds (secSize r) r (Nat.le_refl _) htr s hs
          omega
      · rcases ht with ht | ht
        · -- s in the rest, t inside r: impossible
          exfalso
          obtain ⟨d, hd, hsd⟩ := mem_flattenForest.1 hs
          have hpw := chainTile_pairwise hc d hd
          have hsd' := (chainTile_elem (chainTile_tail hc) d hd).1
          have hbs := tile_bounds (secSize d) d (Nat.le_refl _) hsd' s hsd
          have hbt := tile_bounds (secSize r) r (Nat.le_refl _) htr t ht
          omega
        · -- both in the rest: recurse
          exact ih rest b (by have := secSize_pos r; omega) (chainTile_tail hc)
            s hs t ht hst hts

theorem narrow_next (lines : List Line) (R : List Section)
    (hchain : chainTile lines.length R = true)
    {s : Section} (hs : s ∈ flattenForest R) :
    narrowEnd (flattenForest R) s.line_start s.line_end =
      (match s.children with
       | [] => s.line_end + 1
       | c :: _ => c.line_start) := by
  have hts := (chain_flatten_tile hchain s hs).1
  have hwin := windowD (forestSize R) R lines.length (Nat.le_refl _) hchain s hs
  cases hch : s.children with
  | nil =>
    have hub := narrowEnd_le (flattenForest R) s.line_start s.line_end
    have hlb := narrowFold_lb s.line_start (s.line_end + 1) (flattenForest R)
      (s.line_end + 1)
      (by
        intro t htm h1 h2
        exfalso
        obtain ⟨c, ⟨cs', hc⟩, _⟩ := hwin t htm h1 (by omega)
        rw [hch] at hc
        cases hc)
      (Nat.le_refl _)
    show narrowEnd (flattenForest R) s.line_start s.line_end = s.line_end + 1
    unfold narrowEnd at hub ⊢
    omega
  | cons c cs' =>
    have hcm : c ∈ flattenForest R :=
      flatten_trans_forest hs (children_mem_flattenSec (by rw [hch]; simp))
    have hclt : s.line_start < c.line_start := tile_children_gt hts c (by rw [hch]; simp)
    have hcle : c.line_start ≤ s.line_end := by
      have h1 := chainTile_elem (tile_children_chain hts) c (by rw [hch]; simp)
      have h2 := tile_le h1.1
      omega
    have hub := narrowFold_le_mem s.line_start (flattenForest R)
      (s.line_end + 1) hcm hclt
    have hlb := narrowFold_lb s.line_start c.line_start (flattenForest R)
      (s.line_end + 1)
      (by
        intro t htm h1 h2
        obtain ⟨c0, ⟨cs0, hc0⟩, hle0⟩ := hwin t htm h1 (by omega)
        rw [hch] at hc0
        have hcc0 : c0 = c := by
          injection hc0 with h _
          exact h.symm
        rw [hcc0] at hle0
        exact hle0)
      (by omega)
    show narrowEnd (flattenForest R) s.line_start s.line_end = c.line_start
    unfold narrowEnd
    omega

theorem sliceLines_append (lines : List Line) (a b c : Nat)
    (h1 : a ≤ b) (h2 : b ≤ c) :
    sliceLines lines a b ++ sliceLines lines b c = sliceLines lines a c := by
  unfold sliceLines
  have hca : c - a = (b - a) + (c - b) := by omega
  rw [hca, List.take_add]
  congr 1
  rw [List.drop_drop]
  congr 2
  omega

theorem sliceLines_cons (lines : List Line) (a b : Nat)
    (hab : a < b) (hb : b ≤ lines.length) :
    sliceLines lines a b = lines.getD a [] :: sliceLines lines (a + 1) b := by
  unfold sliceLines
  have ha : a < lines.length := by omega
  rw [List.drop_eq_getElem_cons ha]
  have hba : b - a = (b - (a + 1)) + 1 := by omega
  rw [hba, List.take_succ_cons]
  rw [List.getD_eq_getElem lines [] ha]

theorem sliceLines_mem {lines : List Line} {a b : Nat} {x : Line}
    (hx : x ∈ sliceLines lines a b) :
    ∃ j, a ≤ j ∧ j < b ∧ j < lines.length ∧ lines.getD j [] = x := by
  unfold sliceLines at hx
  obtain ⟨i, hi, hix⟩ := List.mem_iff_getElem.1 hx
  have hlen : i < b - a ∧ i < (lines.drop a).length := by
    have := List.length_take (b - a) (lines.drop a)
    omega
  have hdl : (lines.drop a).length = lines.length - a := List.length_drop a lines
  have hja : a + i < lines.length := by omega
  refine ⟨a + i, by omega, by omega, hja, ?_⟩
  rw [List.getD_eq_getElem lines [] hja]
  rw [← hix]
  rw [List.getElem_take]
  exact (List.getElem_drop lines).symm

theorem sliceLines_zero (lines : List Line) :
    sliceLines lines 0 lines.length = lines := by
  unfold sliceLines
  simp

theorem sliceLines_len_one {lines : List Line} {a b : Nat} (hab : a < b)
    (hb : b ≤ lines.length) :
    (sliceLines lines a b).drop 1 = sliceLines lines (a + 1) b := by
  rw [sliceLines_cons lines a b hab hb]
  rfl

theorem canon_eq {l : Line} (hc : isCanonicalLine l = true) {k : Nat} {t : Line}
    (hp : parseHeader l = some (k, t)) : l = headerLine k t := by
  unfold isCanonicalLine at hc
  rw [hp] at hc
  exact beq_iff_eq.1 hc

theorem nofence_state (lines : List Line)
    (h : ∀ l ∈ lines, isFence l = false) (i : Nat) :
    fenceStateAt lines i = false := by
  rw [fenceStateAt_parity]
  have hz : (lines.take i).countP isFence = 0 := by
    rw [List.countP_eq_zero]
    intro a ha
    have : a ∈ lines := List.mem_of_mem_take ha
    simp [h a this]
  rw [hz]
  decide

theorem detected_of_pattern (lines : List Line)
    (hnf : ∀ l ∈ lines, isFence l = false) (j : Nat) (hj : j < lines.length)
    (hp : isHeaderPattern (lines.getD j []) = true) :
    headerDetectedAt lines j := by
  refine ⟨nofence_state lines hnf j, ?_, hp⟩
  rw [List.getD_eq_getElem lines [] hj]
  exact hnf _ (List.getElem_mem hj)

theorem projectForest_nil : projectForest [] = [] := rfl

theorem projectForest_cons (s : Section) (rest : List Section) :
    projectForest (s :: rest) = projectSec s ++ projectForest rest := rfl

theorem projectSec_eq (s : Section) :
    projectSec s =
      (if s.enabled then
        headerLine s.level s.title ::
          (s.content_lines.drop 1).filter (fun x => !(isHeaderPattern x))
      else []) ++ projectForest s.children := by
  cases s with
  | mk l t a b e cl cs => rfl

theorem narrowSec_content (flat : List Section) (lines : List Line) (s : Section) :
    (narrowSec flat lines s).content_lines =
      sliceLines lines s.line_start (narrowEnd flat s.line_start s.line_end) := by
  cases s with
  | mk l t a b e cl cs => rfl

theorem projectSec_of_enabled {s : Section} (h : s.enabled = true) :
    projectSec s =
      (headerLine s.level s.title ::
        (s.content_lines.drop 1).filter (fun x => !(isHeaderPattern x))) ++
        projectForest s.children := by
  cases s with
  | mk l t a b e cl cs =>
    simp only [Section.enabled] at h
    subst h
    rfl

theorem rt_go (lines : List Line) (R : List Section)
    (hchain : chainTile lines.length R = true)
    (hcanon : ∀ l ∈ lines, isCanonicalLine l = true)
    (hnofence : ∀ l ∈ lines, isFence l = false)
    (hhdr : ∀ s ∈ flattenForest R,
      HeaderData lines s.line_start s.level s.title)
    (hcomplete : ∀ j, j < lines.length → headerDetectedAt lines j →
      ∃ u ∈ flattenForest R, u.line_start = j) :
    ∀ (n : Nat) (F : List Section) (b : Nat), forestSize F ≤ n →
      chainTile b F = true → b ≤ lines.length →
      (∀ s ∈ flattenForest F, s ∈ flattenForest R) →
      projectForest (narrowForest (flattenForest R) lines F) =
        (match F with
         | [] => ([] : List Line)
         | s :: _ => sliceLines lines s.line_start b) := by
  intro n
  induction n with
  | zero =>
    intro F b hF _ _ _
    cases F with
    | nil => rfl
    | cons s rest => have := secSize_pos s; rw [forestSize] at hF; omega
  | succ n ih =>
    intro F b hF hc hb hsub
    cases F with
    | nil => rfl
    | cons s rest =>
      rw [forestSize] at hF
      have hszs := secSize_eq s
      have hts : tileSec s = true := (chainTile_elem hc s (by simp)).1
      have hsle : s.line_end < b := (chainTile_elem hc s (by simp)).2
      have hsR : s ∈ flattenForest R := by
        apply hsub
        rw [flattenForest, List.mem_append]
        exact Or.inl (self_mem_flattenSec s)
      have hlsle := tile_le hts
      have hlsn : s.line_start < lines.length := by omega
      have hnext := narrow_next lines R hchain hsR
      have hgtn : s.line_start <
          narrowEnd (flattenForest R) s.line_start s.line_end :=
        narrowEnd_gt _ hlsle
      have hlen2 : narrowEnd (flattenForest R) s.line_start s.line_end ≤
          s.line_end + 1 := narrowEnd_le _ _ _
      have hd := hhdr s hsR
      have hline : lines.getD s.line_start [] = headerLine s.level s.title := by
        refine canon_eq ?_ hd.2.2
        apply hcanon
        rw [List.getD_eq_getElem lines [] hlsn]
        exact List.getElem_mem hlsn
      -- the head section projects to exactly its own slice of the document
      have hsec : projectSec (narrowSec (flattenForest R) lines s) =
          sliceLines lines s.line_start (s.line_end + 1) := by
        have hen : (narrowSec (flattenForest R) lines s).enabled = true := by
          rw [(narrowSec_fields _ _ s).2.2.2.1]
          exact tile_enabled hts
        rw [projectSec_of_enabled hen]
        rw [(narrowSec_fields _ _ s).2.1, (narrowSec_fields _ _ s).2.2.1]
        rw [narrowSec_content, (narrowSec_fields _ _ s).2.2.2.2]
        rw [sliceLines_len_one hgtn (by omega)]
        have hfilter :
            (sliceLines lines (s.line_start + 1)
              (narrowEnd (flattenForest R) s.line_start s.line_end)).filter
                (fun x => !(isHeaderPattern x)) =
              sliceLines lines (s.line_start + 1)
                (narrowEnd (flattenForest R) s.line_start s.line_end) := by
          rw [List.filter_eq_self]
          intro x hx
          obtain ⟨j, hj1, hj2, hj3, hj4⟩ := sliceLines_mem hx
          by_contra hpx
          have hpat : isHeaderPattern x = true := by
            revert hpx
            cases isHeaderPattern x <;> simp
          rw [← hj4] at hpat
          have hdet := detected_of_pattern lines hnofence j hj3 hpat
          obtain ⟨u, huR, huj⟩ := hcomplete j hj3 hdet
          obtain ⟨c, ⟨cs', hch⟩, hcle⟩ :=
            windowD (forestSize R) R lines.length (Nat.le_refl _) hchain s hsR
              u huR (by omega) (by omega)
          have hnext2 : narrowEnd (flattenForest R) s.line_start s.line_end =
              c.line_start := by
            rw [hnext, hch]
          omega
        rw [hfilter]
        rw [← hline]
        rw [← sliceLines_cons lines s.line_start
          (narrowEnd (flattenForest R) s.line_start s.line_end) hgtn (by omega)]
        -- now handle the children
        cases hch : s.children with
        | nil =>
          have hnext2 : narrowEnd (flattenForest R) s.line_start s.line_end =
              s.line_end + 1 := by
            rw [hnext, hch]
          show sliceLines lines s.line_start
              (narrowEnd (flattenForest R) s.line_start s.line_end) ++
              projectForest (narrowForest (flattenForest R) lines []) = _
          rw [hnext2]
          simp [narrowForest, projectForest_nil]
        | cons c cs' =>
          have hnext2 : narrowEnd (flattenForest R) s.line_start s.line_end =
              c.line_start := by
            rw [hnext, hch]
          have hcchain : chainTile (s.line_end + 1) (c :: cs') = true := by
            have := tile_children_chain hts
            rw [hch] at this
            exact this
          have hcsub : ∀ u ∈ flattenForest (c :: cs'), u ∈ flattenForest R := by
            intro u hu
            refine flatten_trans_forest hsR ?_
            rw [flattenSec_eq]
            right
            rw [hch]
            exact hu
          have hrec : projectForest (narrowForest (flattenForest R) lines (c :: cs')) =
              sliceLines lines c.line_start (s.line_end + 1) :=
            ih (c :: cs') (s.line_end + 1)
              (by rw [← hch]; omega) hcchain (by omega) hcsub
          show sliceLines lines s.line_start
              (narrowEnd (flattenForest R) s.line_start s.line_end) ++
              projectForest (narrowForest (flattenForest R) lines (c :: cs')) = _
          rw [hrec, hnext2]
          refine sliceLines_append lines s.line_start c.line_start
            (s.line_end + 1) ?_ ?_
          · omega
          · have h1 := chainTile_elem hcchain c (by simp)
            have := tile_le h1.1
            omega
      -- assemble head and tail of the forest
      rw [narrowForest, projectForest_cons, hsec]
      rw [chainTile_cons] at hc
      simp only [Bool.and_eq_true] at hc
      obtain ⟨⟨_, hlink⟩, hcrest⟩ := hc
      cases rest with
      | nil =>
        simp only [narrowForest, projectForest_nil, List.append_nil]
        simp at hlink
        rw [hlink]
      | cons d rest' =>
        simp at hlink
        have hrest : projectForest (narrowForest (flattenForest R) lines (d :: rest')) =
            sliceLines lines d.line_start b := by
          refine ih (d :: rest') b ?_ hcrest hb ?_
          · have := secSize_pos s; omega
          · intro u hu
            apply hsub
            rw [flattenForest, List.mem_append]
            exact Or.inr hu
        rw [hrest, ← hlink]
        exact sliceLines_append lines s.line_start (s.line_end + 1) b
          (by omega) (by omega)

end Menuconfig

/-! The claims, one theorem per claim, with witnesses and counterexamples. -/

namespace Menuconfig

/-- C1, counterexample to the claim as stated: a document whose single line
is plain text parses to no sections at all, so the all-enabled projection is
empty and does not reproduce the document. -/
theorem round_trip_counterexample :
    projectText (parse [ln "text"]) ≠ unlines [ln "text"] := by decide

/-- C1, amended: for every document whose first line matches the heading
grammar, whose heading-pattern lines are all canonical (each equals its own
reconstruction: hashes, one space, trimmed title), and which contains no
code-fence lines, projecting the parsed forest with every section's
`enabled` flag left true (the parser's default) yields the original text
exactly. -/
theorem round_trip_canonical_headers (lines : List Line) (hne : lines ≠ [])
    (hfirst : isHeaderPattern (lines.getD 0 []) = true)
    (hcanon : ∀ l ∈ lines, isCanonicalLine l = true)
    (hnofence : ∀ l ∈ lines, isFence l = false) :
    projectText (parse lines) = unlines lines := by
  have hn : 0 < lines.length := List.length_pos.2 hne
  have hchain := pass1_chain lines
  have hhdr : ∀ s ∈ flattenForest (parsePass1 lines),
      HeaderData lines s.line_start s.level s.title :=
    fun s hs => (pass1_hdrs_sound lines s hs).2
  have hcomplete : ∀ j, j < lines.length → headerDetectedAt lines j →
      ∃ u ∈ flattenForest (parsePass1 lines), u.line_start = j := by
    intro j hj hd
    obtain ⟨u, hu, huj, _⟩ := pass1_hdrs_complete lines j hj hd
    exact ⟨u, hu, huj⟩
  have hdet0 := detected_of_pattern lines hnofence 0 hn hfirst
  obtain ⟨u0, hu0, hu0l⟩ := hcomplete 0 hn hdet0
  have hrt := rt_go lines (parsePass1 lines) hchain hcanon hnofence hhdr hcomplete
    (forestSize (parsePass1 lines)) (parsePass1 lines) lines.length
    (Nat.le_refl _) hchain (Nat.le_refl _) (fun s hs => hs)
  cases hR : parsePass1 lines with
  | nil =>
    exfalso
    rw [hR, flattenForest] at hu0
    cases hu0
  | cons r rest =>
    have hr0 : r.line_start = 0 := by
      rw [hR] at hchain hu0
      have := chain_flatten_lb hchain u0 hu0
      omega
    rw [hR] at hrt
    unfold projectText
    simp only [parse]
    rw [hR]
    rw [hrt]
    show unlines (sliceLines lines r.line_start lines.length) = unlines lines
    rw [hr0, sliceLines_zero]

/-- C1, witness: the amended round trip at the specification's own scenario
document. -/
theorem round_trip_witness :
    projectText (parse scenarioDoc) = unlines scenarioDoc :=
  round_trip_canonical_headers scenarioDoc (by decide) (by decide) (by decide)
    (by decide)

/-- C2: a disabled section emits neither its header line nor its body lines,
yet the projector still visits (and may emit) its children; and on the
specification's scenario document, disabling `A` while leaving `B` enabled
projects exactly `## B\ntext2\n# C\ntext3\n`. -/
theorem disabled_section_contributes_nothing :
    (∀ s : Section, s.enabled = false →
      projectSec s = projectForest s.children) ∧
      projectText (toggleForest [0] (parse scenarioDoc)) =
        ("## B\ntext2\n# C\ntext3\n").toList := by
  constructor
  · intro s h
    cases s with
    | mk l t a b e cl cs =>
      simp [Section.enabled] at h
      simp [h, projectSec, Section.children]
  · decide

/-- C3: while the code-fence flag is up when the scan reaches a line — in
particular for any line between a matched pair of fence lines — and on fence
lines themselves, no header detection occurs: no section of the parsed
forest starts at such a line. -/
theorem code_fence_suppresses_sections :
    ∀ (lines : List Line) (i : Nat),
      fenceStateAt lines i = true ∨ isFence (lines.getD i []) = true →
      ∀ s ∈ flattenForest (parse lines), s.line_start ≠ i := by
  intro lines i hin s hs heq
  have hd := parse_hdrs_sound lines s hs
  rw [heq] at hd
  rcases hin with hin | hin
  · rw [hd.2.1] at hin
    exact Bool.false_ne_true hin
  · rw [hd.2.2.1] at hin
    exact Bool.false_ne_true hin

/-- C3, witness: in a document with a heading-like line fenced between two
backtick lines, no parsed section starts at that line. -/
theorem code_fence_suppression_witness :
    (flattenForest (parse fenceDoc)).all
      (fun s => decide (s.line_start ≠ 2)) = true := by
  rw [List.all_eq_true]
  intro s hs
  have := code_fence_suppresses_sections fenceDoc 2 (Or.inl (by decide)) s hs
  simpa using this

/-- C4: when a document has exactly one fence line (a fence that is never
closed) and that fence precedes every heading-pattern line, the parser
returns zero sections. -/
theorem unterminated_fence_yields_no_sections :
    ∀ lines : List Line,
      lines.countP isFence = 1 →
      (∀ (j i : Fin lines.length), isFence (lines.get j) = true →
        isHeaderPattern (lines.get i) = true → (j : Nat) < (i : Nat)) →
      parse lines = [] := by
  intro lines h1 h2
  cases hp : parse lines with
  | nil => rfl
  | cons s rest =>
    exfalso
    have hs : s ∈ flattenForest (parse lines) := by
      rw [hp, flattenForest, flattenSec_eq]
      exact List.mem_cons_self _ _
    have hd := parse_hdrs_sound lines s hs
    obtain ⟨hlt, hfs, _, hpat⟩ := hd
    have hcnt1 : 0 < lines.countP isFence := by omega
    rw [List.countP_pos_iff] at hcnt1
    obtain ⟨a, ha, hafence⟩ := hcnt1
    obtain ⟨f, hflt, hfa⟩ := List.getElem_of_mem ha
    have hfence : isFence lines[f] = true := by rw [hfa]; exact hafence
    have hfi : f < s.line_start := by
      have := h2 ⟨f, hflt⟩ ⟨s.line_start, hlt⟩ (by simpa using hfence)
        (by
          have hg : lines.get ⟨s.line_start, hlt⟩ = lines.getD s.line_start [] := by
            rw [List.getD_eq_getElem lines [] hlt]
            rfl
          rw [hg, isHeaderPattern, hpat]
          rfl)
      simpa using this
    have hge : 0 < (lines.take s.line_start).countP isFence :=
      fence_mem_take hfi hflt hfence
    have hle : (lines.take s.line_start).countP isFence ≤ 1 := by
      have := take_countP_le lines s.line_start
      omega
    have hone : (lines.take s.line_start).countP isFence = 1 := by omega
    have : fenceStateAt lines s.line_start = true := by
      rw [fenceStateAt_parity, hone]
      decide
    rw [hfs] at this
    exact Bool.false_ne_true this

/-- C4, witness: the three-line document whose unterminated fence precedes
its heading parses to zero sections. -/
theorem unterminated_fence_witness : parse untermDoc = [] :=
  unterminated_fence_yields_no_sections untermDoc (by decide) (by decide)

/-- C5: in every forest the parser produces, each section's range is an
interval and, for every pair of siblings in document order, the earlier
sibling's `line_end` lies below the later sibling's `line_start` — sibling
ranges are pairwise disjoint and ordered by `line_start`, at every level of
the forest. -/
theorem sibling_ranges_disjoint_ordered (lines : List Line) :
    sibOKForest (parse lines) = true := by
  simp only [parse]
  exact sibOK_narrow _ lines (forestSize (parsePass1 lines)) _ lines.length
    (Nat.le_refl _) (pass1_chain lines)

/-- C6, counterexample to the claim as stated: after content extraction, the
parent `A` of `nestedDoc` has `line_end = 1` while its descendant `B` starts
at line 2, so the descendant's `line_start` does not lie within the
ancestor's final `[line_start, line_end]` range. -/
theorem nesting_counterexample : nestClaimForest (parse nestedDoc) = false := by
  decide

/-- C6, amended: the claimed containment holds of the ranges the first pass
computes — every descendant starts strictly inside its ancestor's
`[line_start, line_end]` there — and in the final forest every descendant's
`line_start` is still strictly greater than its ancestor's; only the upper
bound moves, because content extraction narrows a parent's `line_end` to the
end of its own content, which precedes its descendants. -/
theorem nesting_amended_invariant :
    (∀ lines : List Line, nestClaimForest (parsePass1 lines) = true) ∧
      (∀ lines : List Line, nestLowerForest (parse lines) = true) := by
  constructor
  · intro lines
    exact nestClaim_pass1 (forestSize (parsePass1 lines)) _ lines.length
      (Nat.le_refl _) (pass1_chain lines)
  · intro lines
    simp only [parse]
    exact nestLower_narrow _ lines (forestSize (parsePass1 lines)) _ lines.length
      (Nat.le_refl _) (pass1_chain lines)

/-- C7: toggling any section's `enabled` flag twice — addressed by any
child-index path, on any forest — returns the projector's output to exactly
its prior value. -/
theorem toggle_twice_restores_projection (F : List Section) (p : List Nat) :
    projectText (toggleForest p (toggleForest p F)) = projectText F := by
  rw [toggleForest_involutive]

/-- C8: the parser never raises on lines that fail the heading grammar —
such a line starts no section and is plain content — and the caller-facing
entry either fails fast when the backing file is absent, before any forest
exists, or returns the complete parsed forest. -/
theorem parser_never_raises_malformed_inert :
    loadAndParse none = Except.error "FileNotFound" ∧
      (∀ lines : List Line, loadAndParse (some lines) = Except.ok (parse lines)) ∧
      (∀ lines : List Line, ∀ i : Fin lines.length,
        isHeaderPattern (lines.get i) = false →
        ∀ s ∈ flattenForest (parse lines), s.line_start ≠ (i : Nat)) := by
  refine ⟨rfl, fun lines => rfl, ?_⟩
  intro lines i hpat s hs heq
  have hd := parse_hdrs_sound lines s hs
  rw [heq] at hd
  have hsome := hd.2.2.2
  have hget : lines.getD (i : Nat) [] = lines.get i := by
    rw [List.getD_eq_getElem lines [] i.isLt]
    rfl
  rw [hget] at hsome
  rw [isHeaderPattern, hsome] at hpat
  simp at hpat

end Menuconfig

namespace Mockup

set_option maxRecDepth 20000 in
/-- C9: the chart script is a single linear statement sequence — it defines
no function and no class and contains no exception handler — and its
abstract execution succeeds exactly when no statement of the module fails,
so any failing step propagates uncaught to the caller. -/
theorem linear_script_no_defs_no_handlers :
    hasFuncDef generateMockupModule = false ∧
    hasClassDef generateMockupModule = false ∧
    hasTry generateMockupModule = false ∧
    ∀ fails : PyStmt → Bool,
      (execList fails generateMockupModule = true ↔
        ∀ s ∈ allStmtsList generateMockupModule, fails s = false) := by
  refine ⟨by decide, by decide, by decide, ?_⟩
  intro fails
  rw [execList_eq fails _ (by decide) (by decide)]
  simp [List.all_eq_true]

set_option maxRecDepth 20000 in
/-- C10: every run of the chart script — it reads neither arguments nor the
environment, so none can change the destination — writes the figure to the
one fixed absolute path and then prints the fixed success message naming
`dashboard-mockup.png`, followed by its two informational lines. -/
theorem savefig_fixed_path_then_message :
    ∀ (argv : List String) (env : String → Option String),
      run argv env =
        [Effect.savefig fixedPath, Effect.stdout successMessage,
         Effect.stdout "Resolution: 6000x4200 pixels (300 DPI)",
         Effect.stdout "File size: ~2-3MB"] := by
  intro argv env
  rfl

end Mockup
